import Mathlib

/-!
Verification of the twitch-agent submission-vote-execute pipeline.

This development gives a shallow embedding of the core pure logic of the
repository: the grammar allowlist of `runner/ast_allowlist.py`, the
subprocess execution wrapper of `runner/runner.py`, the text-cleanup and
moderation helpers of `backend/main.py`, the in-memory submission store of
`backend/main.py`, and the poll state machine of `bot/main.py`.

Python strings are modelled as `List Char`; the ASCII fragments of
`str.lower`, `str.upper`, `str.strip`, `str.isalpha` and the regex
character classes used by the code are modelled explicitly below.
-/

set_option maxRecDepth 8000

/-! ### Python character primitives (ASCII fragment) -/

/-- Python `\s` / `str.strip` whitespace: space, tab, newline, carriage
return, vertical tab, form feed. -/
def pyIsSpace (c : Char) : Bool :=
  decide (c.toNat = 32) || decide (c.toNat = 9) || decide (c.toNat = 10) ||
  decide (c.toNat = 13) || decide (c.toNat = 11) || decide (c.toNat = 12)

/-- ASCII fragment of Python `str.lower`. -/
def pyToLower (c : Char) : Char :=
  if 65 ≤ c.toNat ∧ c.toNat ≤ 90 then Char.ofNat (c.toNat + 32) else c

/-- ASCII fragment of Python `str.upper` (used on a single character). -/
def pyToUpper (c : Char) : Char :=
  if 97 ≤ c.toNat ∧ c.toNat ≤ 122 then Char.ofNat (c.toNat - 32) else c

/-- ASCII fragment of Python `str.isalpha`. -/
def pyIsAlpha (c : Char) : Bool :=
  decide (65 ≤ c.toNat ∧ c.toNat ≤ 90) || decide (97 ≤ c.toNat ∧ c.toNat ≤ 122)

/-- ASCII fragment of Python `str.isdigit`. -/
def pyIsDigit (c : Char) : Bool :=
  decide (48 ≤ c.toNat ∧ c.toNat ≤ 57)

/-- ASCII fragment of Python `str.isalnum`. -/
def pyIsAlnum (c : Char) : Bool := pyIsAlpha c || pyIsDigit c

/-- The regex word-character class `\w` (ASCII fragment): alphanumeric or
underscore (code 95). -/
def wordChar (c : Char) : Bool := pyIsAlnum c || decide (c.toNat = 95)

/-- The backtick character (code 96), written via its code point. -/
def backtick : Char := Char.ofNat 96

/-- The double-quote character (code 34), written via its code point. -/
def quoteChar : Char := Char.ofNat 34

/-- Characters of a string literal, as the `List Char` model used here. -/
def chars (s : String) : List Char := s.toList

/-! ### Generic list-of-characters helpers -/

/-- `startsWithSeq hay needle` holds when `needle` is a prefix of `hay`. -/
def startsWithSeq : List Char → List Char → Bool
  | _, [] => true
  | [], _ :: _ => false
  | a :: as, b :: bs => a == b && startsWithSeq as bs

/-- `containsSeq hay needle`: `needle` occurs contiguously inside `hay`
(Python's `in` on strings). -/
def containsSeq : List Char → List Char → Bool
  | [], needle => needle.isEmpty
  | a :: as, needle => startsWithSeq (a :: as) needle || containsSeq as needle

/-- No two adjacent characters of the list satisfy the binary predicate. -/
def noAdjPair (p : Char → Char → Bool) : List Char → Bool
  | a :: b :: t => !p a b && noAdjPair p (b :: t)
  | _ => true

/-- Every character of the list satisfies `q`. -/
def allChars (q : Char → Bool) (s : List Char) : Bool := s.all q

/-- Python `str.strip`: drop leading and trailing whitespace. -/
def pyStrip (s : List Char) : List Char :=
  ((s.dropWhile pyIsSpace).reverse.dropWhile pyIsSpace).reverse

/-! ### Syntax-tree model for `runner/ast_allowlist.py`

The validator works on the tree produced by `ast.parse`; parsing itself is
outside the model, so `validate_snippet` takes the already-parsed tree
together with the raw source text (used by the substring denylist).  The
tree type mirrors the `ast` node kinds that `validate_snippet` can meet:
all members of `ALLOWED_NODE_TYPES` that carry distinct structure, plus
representative disallowed kinds (`ast.Import`, `ast.ImportFrom`,
`ast.FunctionDef`) and disallowed operator kinds.  Node payloads that the
validator never inspects (constant values, import aliases) are dropped. -/

/-- Operator node kinds (`ast.Add`, `ast.Sub`, ... are nodes visited by
`ast.walk`).  The first group is inside `ALLOWED_NODE_TYPES`; the second
group stands for operators outside it. -/
inductive PyOp where
  | add | sub | mult | div | floorDiv | modOp | powOp | uSub | uAdd
  | eqOp | notEqOp | ltOp | ltEOp | gtOp | gtEOp | boolAnd | boolOr
  | bitOr | bitAnd | lshift | isOp | inOp | notOp
deriving DecidableEq

/-- Whether the operator node kind is in `ALLOWED_NODE_TYPES`. -/
def opAllowed : PyOp → Bool
  | .bitOr | .bitAnd | .lshift | .isOp | .inOp | .notOp => false
  | _ => true

mutual
/-- Model of the Python `ast` nodes relevant to `validate_snippet`. -/
inductive PyNode where
  | module (body : PyNodeList)
  | exprStmt (value : PyNode)
  | assign (targets : PyNodeList) (value : PyNode)
  | name (id : List Char)
  | attrAccess (value : PyNode) (attrName : List Char)
  | call (func : PyNode) (args : PyNodeList) (keywords : PyNodeList)
  | keywordArg (value : PyNode)
  | constant
  | binOp (op : PyOp) (left : PyNode) (right : PyNode)
  | unaryOp (op : PyOp) (operand : PyNode)
  | compare (op : PyOp) (left : PyNode) (right : PyNode)
  | boolOp (op : PyOp) (values : PyNodeList)
  | tupleLit (elts : PyNodeList)
  | listLit (elts : PyNodeList)
  | dictLit (keys : PyNodeList) (values : PyNodeList)
  | joinedStr (values : PyNodeList)
  | formattedValue (value : PyNode)
  | importStmt
  | importFrom
  | funcDef (body : PyNodeList)
deriving DecidableEq
/-- A list of child nodes (mirrors the `list` fields of `ast` nodes). -/
inductive PyNodeList where
  | nil
  | cons (n : PyNode) (ns : PyNodeList)
deriving DecidableEq
end

/-- The identifier `agent` (the only member of `ALLOWED_CALL_BASES`). -/
def agentName : List Char := chars "agent"

/-- `_is_allowed_call`: the call target must be `<name>.<method>` with the
name in `ALLOWED_CALL_BASES = {"agent"}`. -/
def is_allowed_call : PyNode → Bool
  | .attrAccess (.name id) _ => id == agentName
  | _ => false

/-- The per-node checks performed inside the `ast.walk` loop of
`validate_snippet`: the node type must be in `ALLOWED_NODE_TYPES`, an
attribute name must not start with an underscore, a `Name` must be
`agent`, and a `Call` must satisfy `_is_allowed_call`. -/
def localOk : PyNode → Bool
  | .name id => id == agentName
  | .attrAccess _ attrName => !startsWithSeq attrName ['_']
  | .call f _ _ => is_allowed_call f
  | .binOp op _ _ => opAllowed op
  | .unaryOp op _ => opAllowed op
  | .compare op _ _ => opAllowed op
  | .boolOp op _ => opAllowed op
  | .importStmt => false
  | .importFrom => false
  | .funcDef _ => false
  | _ => true

mutual
/-- All nodes of the tree, the root included (models `ast.walk`; `walk`
yields breadth-first, this list is depth-first, which is irrelevant to the
`all`/`any` queries made of it). -/
def walkNodes : PyNode → List PyNode
  | .module body => .module body :: walkNodesL body
  | .exprStmt v => .exprStmt v :: walkNodes v
  | .assign ts v => .assign ts v :: (walkNodesL ts ++ walkNodes v)
  | .name id => [.name id]
  | .attrAccess v a => .attrAccess v a :: walkNodes v
  | .call f args kws => .call f args kws :: (walkNodes f ++ walkNodesL args ++ walkNodesL kws)
  | .keywordArg v => .keywordArg v :: walkNodes v
  | .constant => [.constant]
  | .binOp op l r => .binOp op l r :: (walkNodes l ++ walkNodes r)
  | .unaryOp op v => .unaryOp op v :: walkNodes v
  | .compare op l r => .compare op l r :: (walkNodes l ++ walkNodes r)
  | .boolOp op vs => .boolOp op vs :: walkNodesL vs
  | .tupleLit es => .tupleLit es :: walkNodesL es
  | .listLit es => .listLit es :: walkNodesL es
  | .dictLit ks vs => .dictLit ks vs :: (walkNodesL ks ++ walkNodesL vs)
  | .joinedStr vs => .joinedStr vs :: walkNodesL vs
  | .formattedValue v => .formattedValue v :: walkNodes v
  | .importStmt => [.importStmt]
  | .importFrom => [.importFrom]
  | .funcDef body => .funcDef body :: walkNodesL body
/-- All nodes reachable from a child list. -/
def walkNodesL : PyNodeList → List PyNode
  | .nil => []
  | .cons n ns => walkNodes n ++ walkNodesL ns
end

/-- The syntax-tree stage of `validate_snippet`: every walked node passes
the per-node checks. -/
def astOk (t : PyNode) : Bool := (walkNodes t).all localOk

/-- The banned substrings checked against the normalized source text. -/
def bannedTokens : List (List Char) :=
  [chars "import", chars "exec(", chars "eval(", chars "__",
   chars "subprocess", chars "os.", chars "sys.", chars "open("]

/-- `src.replace(" ", "").lower()`: drop spaces, lowercase. -/
def normalizeSrc (src : List Char) : List Char :=
  (src.filter (fun c => c != ' ')).map pyToLower

/-- Whether the normalized source contains one of the banned substrings. -/
def hasBannedToken (src : List Char) : Bool :=
  bannedTokens.any (fun b => containsSeq (normalizeSrc src) b)

/-- `validate_snippet` on an already-parsed tree: `true` means the function
returns without raising, `false` means it raises `ValueError`. -/
def validate_snippet (tree : PyNode) (src : List Char) : Bool :=
  astOk tree && !hasBannedToken src

/-- The tree contains an import-like construct. -/
def containsImport (t : PyNode) : Bool :=
  (walkNodes t).any (fun n =>
    match n with
    | .importStmt => true
    | .importFrom => true
    | _ => false)

/-- The tree contains an attribute whose name starts with a double
underscore (a dunder marker). -/
def containsDunderAttr (t : PyNode) : Bool :=
  (walkNodes t).any (fun n =>
    match n with
    | .attrAccess _ attrName => startsWithSeq attrName ['_', '_']
    | _ => false)

/-- The tree contains a call whose target is not `agent.<method>`. -/
def containsBadCall (t : PyNode) : Bool :=
  (walkNodes t).any (fun n =>
    match n with
    | .call f _ _ => !is_allowed_call f
    | _ => false)

/-- The parsed form of the snippet `agent.log("hello")`. -/
def minimalSnippetTree : PyNode :=
  .module (.cons (.exprStmt (.call (.attrAccess (.name agentName) (chars "log"))
    (.cons .constant .nil) .nil)) .nil)

/-- The source text `agent.log("hello")`. -/
def minimalSnippetSrc : List Char :=
  chars "agent.log(" ++ [quoteChar] ++ chars "hello" ++ [quoteChar] ++ [')']

/-! ### Subprocess execution model for `runner/runner.py`

`execute_snippet_subproc` validates the snippet, spawns a worker process,
and waits for it with a wall-clock timeout.  The worker is external to a
pure model, so its behaviour is an oracle: it either completes with an
exit code or exceeds the timeout (raising `subprocess.TimeoutExpired` in
`communicate`). -/

/-- Oracle outcome of waiting for the worker process. -/
inductive WorkerOutcome where
  | completes (exitCode : Int)
  | timesOut
deriving DecidableEq

/-- The observable result of `execute_snippet_subproc`: the returned
boolean, and whether `process.kill()` was invoked. -/
structure ExecOutcome where
  success : Bool
  killedWorker : Bool
deriving DecidableEq

/-- `execute_snippet_subproc`: validation failure returns `False` without
spawning; a timeout kills the worker and returns `False`; a completed
worker yields `True` exactly when its exit code is zero. -/
def execute_snippet_subproc (tree : PyNode) (src : List Char)
    (w : WorkerOutcome) : ExecOutcome :=
  if validate_snippet tree src then
    match w with
    | .completes rc => ⟨rc == 0, false⟩
    | .timesOut => ⟨false, true⟩
  else ⟨false, false⟩

/-! ### The prompt cleanup transform `prepare_prompt_for_ai`

`backend/main.py` cleans a winning prompt before it leaves the system:
strip, remove backticks, remove URLs, collapse whitespace, de-duplicate
repeated punctuation, sentence-case the first letter, ensure terminal
punctuation, mask profanity.  Each regex substitution is modelled by a
direct recursive function on the character list. -/

/-- The substitution removing backtick runs; replacing every maximal run of
1 to 3 backticks with the empty string deletes exactly every backtick. -/
def removeBackticks (s : List Char) : List Char := s.filter (fun c => c != backtick)

/-- After the literal `http`, the pattern `s?://` of the URL regex. -/
def schemeRest : List Char → Option (List Char)
  | 's' :: ':' :: '/' :: '/' :: r => some r
  | ':' :: '/' :: '/' :: r => some r
  | _ => none

/-- A match of `https?://\S+` at the head of the list returns the rest of
the text after the (greedy) match; `none` when no match starts here. -/
def urlMatch : List Char → Option (List Char)
  | 'h' :: 't' :: 't' :: 'p' :: rest =>
    match schemeRest rest with
    | some (c :: r) =>
        if pyIsSpace c then none else some (r.dropWhile (fun x => !pyIsSpace x))
    | some [] => none
    | none => none
  | _ => none

/-- Left-to-right deletion of every match of `https?://\S+`, with explicit
fuel (a match consumes at least eight characters, so `s.length` fuel is
always enough). -/
def removeUrlsF : Nat → List Char → List Char
  | 0, s => s
  | _ + 1, [] => []
  | fuel + 1, c :: cs =>
    match urlMatch (c :: cs) with
    | some rest => removeUrlsF fuel rest
    | none => c :: removeUrlsF fuel cs

/-- The substitution `re.sub(r"https?://\S+", "", t)`. -/
def removeUrls (s : List Char) : List Char := removeUrlsF s.length s

/-- No position of the list starts a match of `https?://\S+`. -/
def urlFree : List Char → Bool
  | [] => true
  | c :: cs => (urlMatch (c :: cs)).isNone && urlFree cs

/-- The substitution `re.sub(r"\s+", " ", t)`: each maximal whitespace run
becomes one space. -/
def collapseWs : List Char → List Char
  | [] => []
  | [c] => [if pyIsSpace c then ' ' else c]
  | a :: b :: t =>
    if pyIsSpace a && pyIsSpace b then collapseWs (b :: t)
    else (if pyIsSpace a then ' ' else a) :: collapseWs (b :: t)

/-- The punctuation class `[!?.,]` of the de-duplication regex. -/
def isPunctCls (c : Char) : Bool :=
  c == '!' || c == '?' || c == '.' || c == ','

/-- The substitution `re.sub(r"([!?.,])\1{1,}", r"\1", t)`: a run of the
same punctuation character collapses to one occurrence. -/
def dedupePunct : List Char → List Char
  | [] => []
  | [c] => [c]
  | a :: b :: t =>
    if isPunctCls a && a == b then dedupePunct (b :: t)
    else a :: dedupePunct (b :: t)

/-- `if t and t[0].isalpha(): t = t[0].upper() + t[1:]`. -/
def upperFirst : List Char → List Char
  | [] => []
  | c :: t => if pyIsAlpha c then pyToUpper c :: t else c :: t

/-- The terminal characters accepted by `if t[-1] not in ".!?"`. -/
def terminalPunct (c : Char) : Bool := c == '.' || c == '!' || c == '?'

/-- `if t and t[-1] not in ".!?": t += "."`. -/
def ensureTerminal (s : List Char) : List Char :=
  match s.getLast? with
  | none => s
  | some c => if terminalPunct c then s else s ++ ['.']

/-- `BAD_WORDS | NSFW_WORDS`, listed by decreasing length as in
`_mask_words` (the masking result does not depend on the order, since a
maximal word run can equal at most one of these words). -/
def badWords : List (List Char) :=
  [chars "pornography", chars "explicit", chars "asshole", chars "bastard",
   chars "erotic", chars "nudity", chars "fetish", chars "bitch", chars "porno",
   chars "fuck", chars "shit", chars "dick", chars "cunt", chars "nsfw",
   chars "nude", chars "porn", chars "sex", chars "xxx"]

/-- One step of the segmentation fold: word characters extend a leading
word segment, every other character opens a singleton segment. -/
def segStep (c : Char) (acc : List (List Char)) : List (List Char) :=
  if wordChar c then
    match acc with
    | (d :: ds) :: rest => if wordChar d then (c :: d :: ds) :: rest else [c] :: acc
    | _ => [c] :: acc
  else [c] :: acc

/-- Split a text into maximal word-character runs and singleton non-word
characters; a match of `\b<word>\b` for a fully alphabetic word is exactly
a maximal word run equal to it (up to case). -/
def segments (s : List Char) : List (List Char) := s.foldr segStep []

/-- No two adjacent segments are both word runs: an invariant of
`segments`, used to relate the segmentation of a masked text to the
segmentation of the original. -/
def segsChain : List (List Char) → Bool
  | s₁ :: s₂ :: rest => !(s₁.all wordChar && s₂.all wordChar) && segsChain (s₂ :: rest)
  | _ => true

/-- Star every character except the last (helper for the mask
replacement). -/
def maskInterior : List Char → List Char
  | [] => []
  | [c] => [c]
  | _ :: c :: t => '*' :: maskInterior (c :: t)

/-- The replacement function of `_mask_words`: a word of length at most 2
becomes all stars, otherwise first and last characters are kept and the
interior is starred. -/
def maskSeg (w : List Char) : List Char :=
  if w.length ≤ 2 then List.replicate w.length '*'
  else match w with
    | [] => []
    | a :: rest => a :: maskInterior rest

/-- A word run is masked when, lowercased, it equals one of the banned
words (the `re.IGNORECASE` match of `\b<word>\b`). -/
def maskCond (seg : List Char) : Bool :=
  seg.all wordChar && badWords.contains (seg.map pyToLower)

/-- Mask one segment when it matches a banned word. -/
def maskStep (seg : List Char) : List Char :=
  if maskCond seg then maskSeg seg else seg

/-- `_mask_words(text, BAD_WORDS)`: mask every maximal word run equal (up
to case) to a banned word. -/
def mask_words (s : List Char) : List Char := ((segments s).map maskStep).flatten

/-- `prepare_prompt_for_ai` from `backend/main.py`. -/
def prepare_prompt_for_ai (s : List Char) : List Char :=
  mask_words (ensureTerminal (upperFirst (dedupePunct (pyStrip (collapseWs
    (removeUrls (removeBackticks (pyStrip s))))))))

/-! ### The repeated-n-gram heuristic `_has_repeated_ngram` -/

/-- `re.sub(r"\s+", "", text)`: drop all whitespace. -/
def stripAllWs (s : List Char) : List Char := s.filter (fun c => !pyIsSpace c)

/-- The n-gram `t[i:i+n]`. -/
def ngramAt (t : List Char) (i n : Nat) : List Char := (t.drop i).take n

/-- The start positions `range(0, len(t)-n+1)` of the n-grams of `t`. -/
def gramPositions (t : List Char) (n : Nat) : List Nat := List.range (t.length + 1 - n)

/-- Number of (overlapping) occurrences of the n-gram `g` in `t`. -/
def ngramCount (t : List Char) (n : Nat) (g : List Char) : Nat :=
  ((gramPositions t n).filter (fun i => ngramAt t i n == g)).length

/-- The flagging threshold `max(4, len(t) // (n*3))`. -/
def ngramThreshold (len n : Nat) : Nat := max 4 (len / (n * 3))

/-- The check for one n-gram length `n`: skipped when `len(t) < n*4`,
otherwise flagged when some n-gram reaches the threshold. -/
def flagsForN (t : List Char) (n : Nat) : Bool :=
  decide (n * 4 ≤ t.length) &&
    (gramPositions t n).any (fun i =>
      decide (ngramThreshold t.length n ≤ ngramCount t n (ngramAt t i n)))

/-- `_has_repeated_ngram` from `backend/main.py`. -/
def has_repeated_ngram (text : List Char) : Bool :=
  [2, 3, 4].any (flagsForN (stripAllWs text))

/-- Some n-gram of `t` reaches the threshold (the condition named by the
specification, without the `len(t) < n*4` skip). -/
def RepeatedNgramAt (t : List Char) (n : Nat) : Prop :=
  ∃ i ∈ gramPositions t n, ngramThreshold t.length n ≤ ngramCount t n (ngramAt t i n)

instance (t : List Char) (n : Nat) : Decidable (RepeatedNgramAt t n) := by
  unfold RepeatedNgramAt; infer_instance

/-- The claim's flagging condition as stated: for some n in {2,3,4}, some
n-gram of the whitespace-stripped text reaches `max(4, length/(3n))`. -/
def ClaimedRepeatedNgram (text : List Char) : Prop :=
  ∃ n ∈ ([2, 3, 4] : List Nat), RepeatedNgramAt (stripAllWs text) n

instance (text : List Char) : Decidable (ClaimedRepeatedNgram text) := by
  unfold ClaimedRepeatedNgram; infer_instance

/-! ### Poll winner selection and bot poll state machine (`bot/main.py`) -/

/-- A prompt tracked by the bot: backend id, author, text, submission
time (`prompt_data` in `submit_prompt`). -/
structure PromptItem where
  pid : Nat
  user : String
  text : List Char
  timestamp : Nat
deriving DecidableEq

/-- `self.current_poll[i].get("timestamp", float("inf"))`: the timestamp of
candidate `i`, infinite when the candidate or its timestamp is missing. -/
def tsOf (poll : List PromptItem) (i : Nat) : WithTop Nat :=
  match poll[i]? with
  | some p => (p.timestamp : WithTop Nat)
  | none => ⊤

/-- `max(counts.values())` (with 0 for the empty collection, a case the
caller guards against). -/
def maxVotes (votes : List Nat) : Nat := votes.foldr max 0

/-- `[i for i, c in counts.items() if c == max_votes]`. -/
def tiedIdxs (votes : List Nat) : List Nat :=
  (List.range votes.length).filter (fun i => votes.getD i 0 == maxVotes votes)

/-- `min(... timestamp ... for i in tied)` (`⊤` for the empty collection,
a case the caller guards against). -/
def minTs (poll : List PromptItem) (tied : List Nat) : WithTop Nat :=
  (tied.map (tsOf poll)).foldr min ⊤

/-- `[i for i in tied if timestamp(i) == earliest_ts]`. -/
def tiedEarliest (votes : List Nat) (poll : List PromptItem) : List Nat :=
  (tiedIdxs votes).filter (fun i => tsOf poll i == minTs poll (tiedIdxs votes))

/-- The winner computation of `end_poll_session` in `bot/main.py`: highest
tally, ties broken by earliest timestamp, remaining ties by
`random.choice` (modelled by the oracle `pick`). -/
def winner_index (votes : List Nat) (poll : List PromptItem)
    (pick : List Nat → Nat) : Nat :=
  if votes.isEmpty then 0
  else
    let tied := tiedIdxs votes
    if 1 < tied.length then
      let te := tiedEarliest votes poll
      if 1 < te.length then pick te else te.getD 0 0
    else tied.getD 0 0

/-- The bot state relevant to the poll engine: pending prompts, the open
poll, its tallies, and the `is_processing` / `accepting_votes` flags.
`timerDone` records whether the poll timer task has completed
(`self.poll_timer.done()`). -/
structure BotState where
  pendingPrompts : List PromptItem
  currentPoll : Option (List PromptItem)
  pollVotes : List Nat
  isProcessing : Bool
  acceptingVotes : Bool
  timerDone : Bool
deriving DecidableEq

/-- The bot's initial state (`Bot.__init__`). -/
def initBot : BotState := ⟨[], none, [], false, false, false⟩

/-- Python truthiness of `self.current_poll` (`None` and `[]` are falsy). -/
def pollOpen (s : BotState) : Bool :=
  match s.currentPoll with
  | some (_ :: _) => true
  | _ => false

/-- `cast_vote`: silently dropped when no poll is open, the index is not a
key of `poll_votes`, or votes are not being accepted; otherwise the
candidate's integer counter is incremented. -/
def cast_vote (s : BotState) (idx : Nat) : BotState :=
  if pollOpen s = false ∨ s.pollVotes.length ≤ idx ∨ s.acceptingVotes = false then s
  else { s with pollVotes := s.pollVotes.set idx (s.pollVotes.getD idx 0 + 1) }

/-- `start_poll_session`: record the selected candidates, zero the
tallies, open voting (the chat announcements are outbound effects outside
the model). -/
def start_poll_session (s : BotState) (sel : List PromptItem) : BotState :=
  { s with currentPoll := some sel,
           pollVotes := List.replicate sel.length 0,
           isProcessing := true,
           acceptingVotes := true,
           timerDone := false }

/-- `end_poll_session`: with a truthy poll, every candidate is removed
from the pending queue (one occurrence each, as `list.remove`) and the
poll state is reset; with a falsy poll only the flags are reset.  The
timer task that awaited this call is complete afterwards, so `timerDone`
becomes true.  Winner announcement and backend notification are outbound
effects modelled separately (`winner_index`, `move_to_history`). -/
def end_poll_session (s : BotState) : BotState :=
  match s.currentPoll with
  | some (p :: ps) =>
      { s with pendingPrompts := (p :: ps).foldl (fun acc q => acc.erase q) s.pendingPrompts,
               currentPoll := none, pollVotes := [],
               isProcessing := false, acceptingVotes := false, timerDone := true }
  | _ => { s with isProcessing := false, acceptingVotes := false, timerDone := true }

/-- The transitions of the bot poll engine: the main loop's poll start and
failsafe reset, the timer-driven poll end, vote commands, prompt arrival,
and `!forcepoll`. -/
inductive BotStep : BotState → BotState → Prop where
  | loopStart (s : BotState) (sel : List PromptItem) :
      s.isProcessing = false → 5 ≤ s.pendingPrompts.length →
      sel.length = 5 → (∀ p ∈ sel, p ∈ s.pendingPrompts) →
      BotStep s (start_poll_session s sel)
  | loopFailsafe (s : BotState) :
      s.isProcessing = true → s.timerDone = true →
      BotStep s { s with isProcessing := false }
  | timerEnd (s : BotState) : BotStep s (end_poll_session s)
  | voteCast (s : BotState) (idx : Nat) : BotStep s (cast_vote s idx)
  | promptArrives (s : BotState) (p : PromptItem) :
      BotStep s { s with pendingPrompts := s.pendingPrompts ++ [p] }
  | forcePoll (s : BotState) (sel : List PromptItem) :
      s.isProcessing = false → 2 ≤ s.pendingPrompts.length →
      sel.length = min 5 s.pendingPrompts.length → (∀ p ∈ sel, p ∈ s.pendingPrompts) →
      BotStep s (start_poll_session s sel)

/-- States reachable from the bot's initial state. -/
def BotReachable (s : BotState) : Prop := Relation.ReflTransGen BotStep initBot s

/-! ### Backend in-memory store (`backend/main.py`)

The global dictionaries `SUBMISSIONS`, `VOTES`, `PROMPTS_HISTORY`, the two
approval queues and `NEXT_ID`, together with the endpoint handlers that
mutate them.  The prompt moderation filter `prompt_violation` and the
actions screening regexes are taken as parameters (`fP`, `fA`): the store
behaviour under scrutiny here does not depend on their verdicts. -/

/-- One record of `SUBMISSIONS` / `PROMPTS_HISTORY`. -/
structure Submission where
  user : String
  kind : String
  text : List Char
  code : List Char
  status : String
  votesCount : Nat
  outcome : Option String
  cleanText : Option (List Char)
  processedAt : Option Nat
deriving DecidableEq

/-- The backend store state. -/
structure BackendState where
  submissions : Nat → Option Submission
  votes : Nat → Option (List String)
  history : Nat → Option Submission
  approvedQ : List (Nat × String × List Char)
  approvedPromptsQ : List (Nat × String × List Char)
  nextId : Nat

/-- The initial backend state (`NEXT_ID = 1`, empty stores). -/
def initBackend : BackendState :=
  ⟨fun _ => none, fun _ => none, fun _ => none, [], [], 1⟩

/-- The `/submit` handler.  `fP` is `prompt_violation` (a reason means
rejection), `fA` is the banned-pattern screening of action code (`true`
means rejection).  Returns the assigned id, `none` on rejection. -/
def submit (fP : List Char → Option (List Char)) (fA : List Char → Bool)
    (user : String) (kind : String) (rawText rawCode : List Char)
    (st : BackendState) : Option Nat × BackendState :=
  if kind == "prompt" then
    let text := pyStrip rawText
    if text.isEmpty || decide (500 < text.length) then (none, st)
    else
      match fP text with
      | some _ => (none, st)
      | none =>
        let sid := st.nextId
        (some sid,
         { st with
            nextId := sid + 1,
            submissions := fun i =>
              if i = sid then some ⟨user, "prompt", text, [], "queued", 0, none, none, none⟩
              else st.submissions i })
  else if kind == "actions" then
    if fA rawCode then (none, st)
    else
      let sid := st.nextId
      (some sid,
       { st with
          nextId := sid + 1,
          submissions := fun i =>
            if i = sid then some ⟨user, "actions", [], rawCode, "approved", 0, none, none, none⟩
            else st.submissions i,
          approvedQ := st.approvedQ ++ [(sid, user, rawCode)] })
  else (none, st)

/-- `VOTES.setdefault(id, set()).add(user)`: the voter set, modelled as a
duplicate-free list. -/
def insertVoter (u : String) (l : List String) : List String :=
  if u ∈ l then l else u :: l

/-- The voter set recorded for a submission id (empty when absent). -/
def voterList (st : BackendState) (sid : Nat) : List String :=
  (st.votes sid).getD []

/-- The `/vote` handler: a vote for a missing or non-queued id changes
nothing; otherwise the user joins the voter set and the submission's
`votes` field becomes the set's size. -/
def vote (user : String) (sid : Nat) (st : BackendState) : BackendState :=
  match st.submissions sid with
  | some s =>
      if s.status == "queued" then
        let vs := insertVoter user (voterList st sid)
        { st with
            votes := fun i => if i = sid then some vs else st.votes i,
            submissions := fun i =>
              if i = sid then some { s with votesCount := vs.length }
              else st.submissions i }
      else st
  | none => st

/-- The `/decide` handler (source symbol `decide`): only rejection of a
queued submission changes state. -/
def decide_submission (sid : Nat) (approved : Bool) (st : BackendState) : BackendState :=
  match st.submissions sid with
  | some s =>
      if s.status == "queued" then
        if approved then st
        else
          { st with submissions := fun i =>
              if i = sid then some { s with status := "rejected" } else st.submissions i }
      else st
  | none => st

/-- One iteration of the `/move-to-history` loop: a queued active
submission is copied to history with status `processed` and removed from
the active store and the vote map; anything else is skipped. -/
def moveOne (now : Nat) (st : BackendState) (sid : Nat) : BackendState :=
  match st.submissions sid with
  | some s =>
      if s.status == "queued" then
        { st with
            history := fun i =>
              if i = sid then some { s with status := "processed", processedAt := some now }
              else st.history i,
            submissions := fun i => if i = sid then none else st.submissions i,
            votes := fun i => if i = sid then none else st.votes i }
      else st
  | none => st

/-- The `/move-to-history` handler (source symbol `move_to_history`). -/
def move_to_history (ids : List Nat) (now : Nat) (st : BackendState) : BackendState :=
  ids.foldl (moveOne now) st

/-- The `/prompt/win` handler: for a prompt found in the active store or
in history, record the outcome, store the cleaned text, and enqueue it for
the AI bridge; otherwise a 404 with no state change. -/
def prompt_win (sid : Nat) (st : BackendState) : BackendState :=
  match st.submissions sid with
  | some s =>
      if s.kind == "prompt" then
        let clean := prepare_prompt_for_ai s.text
        { st with
            submissions := fun i =>
              if i = sid then some { s with outcome := some "won", cleanText := some clean }
              else st.submissions i,
            approvedPromptsQ := st.approvedPromptsQ ++ [(sid, s.user, clean)] }
      else st
  | none =>
      match st.history sid with
      | some s =>
          if s.kind == "prompt" then
            let clean := prepare_prompt_for_ai s.text
            { st with
                history := fun i =>
                  if i = sid then some { s with outcome := some "won", cleanText := some clean }
                  else st.history i,
                approvedPromptsQ := st.approvedPromptsQ ++ [(sid, s.user, clean)] }
          else st
      | none => st

/-- The `/prompt/clean/update` handler. -/
def prompt_clean_update (sid : Nat) (txt : List Char) (st : BackendState) : BackendState :=
  match st.submissions sid with
  | some s =>
      if s.kind == "prompt" then
        { st with submissions := fun i =>
            if i = sid then some { s with cleanText := some (pyStrip txt) }
            else st.submissions i }
      else st
  | none =>
      match st.history sid with
      | some s =>
          if s.kind == "prompt" then
            { st with history := fun i =>
                if i = sid then some { s with cleanText := some (pyStrip txt) }
                else st.history i }
          else st
      | none => st

/-- The `/prompt/clean/rebuild` handler; `corrected` is the grammar
service's output for the original text (an external oracle). -/
def prompt_clean_rebuild (sid : Nat) (corrected : List Char) (st : BackendState) : BackendState :=
  match st.submissions sid with
  | some s =>
      if s.kind == "prompt" then
        { st with submissions := fun i =>
            if i = sid then some { s with cleanText := some (prepare_prompt_for_ai corrected) }
            else st.submissions i }
      else st
  | none =>
      match st.history sid with
      | some s =>
          if s.kind == "prompt" then
            { st with history := fun i =>
                if i = sid then some { s with cleanText := some (prepare_prompt_for_ai corrected) }
                else st.history i }
          else st
      | none => st

/-- The `/approved/next` handler's effect on the queue. -/
def pop_approved (st : BackendState) : BackendState :=
  { st with approvedQ := st.approvedQ.drop 1 }

/-- The `/approved/prompt/next` handler's effect on the queue. -/
def pop_approved_prompt (st : BackendState) : BackendState :=
  { st with approvedPromptsQ := st.approvedPromptsQ.drop 1 }

/-- The `/clear` handler: wipes the stores and queues; `NEXT_ID` is not
reset. -/
def clear_backend (st : BackendState) : BackendState :=
  { st with submissions := fun _ => none, votes := fun _ => none,
            history := fun _ => none, approvedQ := [], approvedPromptsQ := [] }

/-- The state-mutating backend operations. -/
inductive BOp where
  | submit (user : String) (kind : String) (text : List Char) (code : List Char)
  | vote (user : String) (sid : Nat)
  | decideSubmission (sid : Nat) (approved : Bool)
  | moveToHistory (ids : List Nat) (now : Nat)
  | promptWin (sid : Nat)
  | cleanUpdate (sid : Nat) (txt : List Char)
  | cleanRebuild (sid : Nat) (corrected : List Char)
  | popApproved
  | popApprovedPrompt
  | clearAll

/-- Apply one backend operation. -/
def applyOp (fP : List Char → Option (List Char)) (fA : List Char → Bool) :
    BOp → BackendState → BackendState
  | .submit u k t c, st => (submit fP fA u k t c st).2
  | .vote u sid, st => vote u sid st
  | .decideSubmission sid ap, st => decide_submission sid ap st
  | .moveToHistory ids now, st => move_to_history ids now st
  | .promptWin sid, st => prompt_win sid st
  | .cleanUpdate sid txt, st => prompt_clean_update sid txt st
  | .cleanRebuild sid cor, st => prompt_clean_rebuild sid cor st
  | .popApproved, st => pop_approved st
  | .popApprovedPrompt, st => pop_approved_prompt st
  | .clearAll, st => clear_backend st

/-- Apply a sequence of backend operations, oldest first. -/
def applyOps (fP : List Char → Option (List Char)) (fA : List Char → Bool) :
    List BOp → BackendState → BackendState
  | [], st => st
  | op :: ops, st => applyOps fP fA ops (applyOp fP fA op st)

/-- States reachable from the initial backend state. -/
def BackendReachable (fP : List Char → Option (List Char)) (fA : List Char → Bool)
    (st : BackendState) : Prop :=
  ∃ ops : List BOp, st = applyOps fP fA ops initBackend

/-- The id assigned by an operation (`some` exactly for a successful
submit). -/
def submitResult (fP : List Char → Option (List Char)) (fA : List Char → Bool) :
    BOp → BackendState → Option Nat
  | .submit u k t c, st => (submit fP fA u k t c st).1
  | _, _ => none

/-- The ids assigned along a run of operations, in order. -/
def assignedIds (fP : List Char → Option (List Char)) (fA : List Char → Bool) :
    List BOp → BackendState → List Nat
  | [], _ => []
  | op :: ops, st =>
      (submitResult fP fA op st).toList ++ assignedIds fP fA ops (applyOp fP fA op st)

/-- The store invariants: ids at or above `NEXT_ID` are unused everywhere,
no id is both active and historical, and every active submission's `votes`
field equals the size of its duplicate-free voter set. -/
def StoreInv (st : BackendState) : Prop :=
  (∀ i, st.nextId ≤ i → st.submissions i = none ∧ st.history i = none ∧ st.votes i = none) ∧
  (∀ i, st.submissions i ≠ none → st.history i = none) ∧
  (∀ i s, st.submissions i = some s →
    s.votesCount = (voterList st i).length ∧ (voterList st i).Nodup)

/-! ### Theorems: grammar allowlist (C1, C10) and executor (C3) -/

theorem astOk_false_of_bad (t : PyNode) (p : PyNode → Bool)
    (hp : ∀ n, p n = true → localOk n = false)
    (h : (walkNodes t).any p = true) : astOk t = false := by
  rcases List.any_eq_true.mp h with ⟨n, hn, hpn⟩
  unfold astOk
  by_contra hall
  have hall' : (walkNodes t).all localOk = true := by
    cases hx : (walkNodes t).all localOk
    · exact absurd hx hall
    · rfl
  have := List.all_eq_true.mp hall' n hn
  rw [hp n hpn] at this
  cases this

theorem startsWithSeq_underscore_of_dunder (a : List Char)
    (h : startsWithSeq a ['_', '_'] = true) : startsWithSeq a ['_'] = true := by
  match a with
  | [] => simp [startsWithSeq] at h
  | x :: rest =>
    simp only [startsWithSeq, Bool.and_eq_true] at h
    simp [startsWithSeq, h.1]

/-- C1: validate_snippet rejects every snippet whose syntax tree contains
an import-like construct, a dunder attribute, or a call whose target is
not of the form `agent.<method>(...)`, and accepts the minimal snippet
`agent.log("hello")`. -/
theorem c1_allowlist_rejects_and_accepts :
    (∀ t src, containsImport t = true → validate_snippet t src = false) ∧
    (∀ t src, containsDunderAttr t = true → validate_snippet t src = false) ∧
    (∀ t src, containsBadCall t = true → validate_snippet t src = false) ∧
    validate_snippet minimalSnippetTree minimalSnippetSrc = true := by
  refine ⟨?_, ?_, ?_, by decide⟩
  · intro t src h
    have := astOk_false_of_bad t _ ?_ h
    · simp [validate_snippet, this]
    · intro n hn
      cases n <;> simp_all [localOk]
  · intro t src h
    have := astOk_false_of_bad t _ ?_ h
    · simp [validate_snippet, this]
    · intro n hn
      cases n
      case attrAccess v a =>
        have h1 : startsWithSeq a ['_', '_'] = true := by simpa using hn
        simp [localOk, startsWithSeq_underscore_of_dunder a h1]
      all_goals simp at hn
  · intro t src h
    have := astOk_false_of_bad t _ ?_ h
    · simp [validate_snippet, this]
    · intro n hn
      cases n <;> simp_all [localOk]

theorem c1_allowlist_witness :
    containsImport (.module (.cons .importStmt .nil)) = true ∧
    validate_snippet (.module (.cons .importStmt .nil)) (chars "agent.log()") = false :=
  ⟨by decide, c1_allowlist_rejects_and_accepts.1 _ _ (by decide)⟩

/-- C10: after the syntax-tree stage, validate_snippet applies a substring
denylist to the space-stripped, lowercased source text, so a snippet whose
tree is entirely allowed is still rejected when a banned token occurs
anywhere in the source, in particular inside a string literal argument
such as `agent.log("import")`. -/
theorem c10_banned_substring_rejection :
    (∀ t src b, b ∈ bannedTokens → containsSeq (normalizeSrc src) b = true →
        validate_snippet t src = false) ∧
    (astOk minimalSnippetTree = true ∧
      validate_snippet minimalSnippetTree
        (chars "agent.log(" ++ [quoteChar] ++ chars "import" ++ [quoteChar] ++ [')']) = false) := by
  constructor
  · intro t src b hb hc
    have hbt : hasBannedToken src = true :=
      List.any_eq_true.mpr ⟨b, hb, hc⟩
    simp [validate_snippet, hbt]
  · exact ⟨by decide, by decide⟩

theorem c10_banned_substring_witness :
    validate_snippet minimalSnippetTree (chars "agent.log(0 , os.x)") = false :=
  c10_banned_substring_rejection.1 _ _ (chars "os.")
    (by decide) (by decide)

/-- C3: when the worker does not finish within the timeout budget,
execute_snippet_subproc returns failure and kills the worker process; a
worker that exits with a non-zero code is likewise reported as failure. -/
theorem c3_subproc_timeout_kills_and_fails :
    (∀ tree src, validate_snippet tree src = true →
        (execute_snippet_subproc tree src .timesOut).success = false ∧
        (execute_snippet_subproc tree src .timesOut).killedWorker = true) ∧
    (∀ tree src rc, rc ≠ 0 →
        (execute_snippet_subproc tree src (.completes rc)).success = false) := by
  constructor
  · intro tree src hv
    simp [execute_snippet_subproc, hv]
  · intro tree src rc hrc
    unfold execute_snippet_subproc
    split
    · simp [hrc]
    · rfl

theorem c3_subproc_witness :
    (execute_snippet_subproc minimalSnippetTree minimalSnippetSrc .timesOut).success = false ∧
    (execute_snippet_subproc minimalSnippetTree minimalSnippetSrc .timesOut).killedWorker = true ∧
    (execute_snippet_subproc minimalSnippetTree minimalSnippetSrc (.completes 1)).success = false :=
  ⟨(c3_subproc_timeout_kills_and_fails.1 _ _ (by decide)).1,
   (c3_subproc_timeout_kills_and_fails.1 _ _ (by decide)).2,
   c3_subproc_timeout_kills_and_fails.2 _ _ 1 (by decide)⟩

/-! ### Theorems: the repeated-n-gram heuristic (C8) -/

/-- C8 counterexample: the text `aaaaa` satisfies the claim's stated
condition (its 2-gram `aa` occurs 4 times, reaching `max(4, 5/(3*2)) = 4`),
yet `_has_repeated_ngram` returns False because of the skip
`if len(t) < n*4: continue` that the claim omits. -/
theorem c8_counterexample :
    ClaimedRepeatedNgram (chars "aaaaa") ∧ has_repeated_ngram (chars "aaaaa") = false :=
  ⟨by decide, by decide⟩

/-- C8 amended: `_has_repeated_ngram` flags a text exactly when, for some
n in {2,3,4} with `n*4 ≤ length` of the whitespace-stripped text, some
n-gram occurs (overlapping occurrences counted) at least
`max(4, length/(3n))` times. -/
theorem c8_repeated_ngram_characterization (text : List Char) :
    has_repeated_ngram text = true ↔
      ∃ n ∈ ([2, 3, 4] : List Nat),
        n * 4 ≤ (stripAllWs text).length ∧ RepeatedNgramAt (stripAllWs text) n := by
  unfold has_repeated_ngram flagsForN RepeatedNgramAt
  simp [List.any_eq_true]

theorem c8_repeated_ngram_witness :
    has_repeated_ngram (chars "abababab") = true :=
  (c8_repeated_ngram_characterization _).mpr ⟨2, by decide, by decide, by decide⟩

/-! ### Theorems: poll winner selection (C4) -/

theorem le_maxVotes (votes : List Nat) : ∀ x ∈ votes, x ≤ maxVotes votes := by
  induction votes with
  | nil => intro x hx; cases hx
  | cons a t ih =>
    intro x hx
    rcases List.mem_cons.mp hx with rfl | hx
    · exact Nat.le_max_left _ _
    · exact le_trans (ih x hx) (Nat.le_max_right _ _)

theorem maxVotes_mem (votes : List Nat) (h : votes ≠ []) : maxVotes votes ∈ votes := by
  induction votes with
  | nil => exact absurd rfl h
  | cons a t ih =>
    rcases eq_or_ne t [] with rfl | ht
    · simp [maxVotes]
    · have hm : maxVotes (a :: t) = max a (maxVotes t) := rfl
      rcases le_total (maxVotes t) a with hle | hle
      · rw [hm, Nat.max_eq_left hle]; exact List.mem_cons_self a t
      · rw [hm, Nat.max_eq_right hle]; exact List.mem_cons_of_mem a (ih ht)

theorem mem_tiedIdxs (votes : List Nat) (i : Nat) :
    i ∈ tiedIdxs votes ↔ i < votes.length ∧ votes.getD i 0 = maxVotes votes := by
  simp [tiedIdxs, List.mem_filter, List.mem_range]

theorem tiedIdxs_ne_nil (votes : List Nat) (h : votes ≠ []) : tiedIdxs votes ≠ [] := by
  have hm := maxVotes_mem votes h
  rcases List.mem_iff_getElem.mp hm with ⟨j, hj, hval⟩
  have : j ∈ tiedIdxs votes := by
    rw [mem_tiedIdxs]
    exact ⟨hj, by rw [List.getD_eq_getElem _ _ hj, hval]⟩
  exact List.ne_nil_of_mem this

theorem minTs_le (poll : List PromptItem) (tied : List Nat) :
    ∀ j ∈ tied, minTs poll tied ≤ tsOf poll j := by
  induction tied with
  | nil => intro j hj; cases hj
  | cons a t ih =>
    intro j hj
    have hstep : minTs poll (a :: t) = min (tsOf poll a) (minTs poll t) := rfl
    rcases List.mem_cons.mp hj with rfl | hj
    · rw [hstep]; exact min_le_left _ _
    · rw [hstep]; exact le_trans (min_le_right _ _) (ih j hj)

theorem minTs_attained (poll : List PromptItem) (tied : List Nat) (h : tied ≠ []) :
    ∃ j ∈ tied, tsOf poll j = minTs poll tied := by
  induction tied with
  | nil => exact absurd rfl h
  | cons a t ih =>
    have hstep : minTs poll (a :: t) = min (tsOf poll a) (minTs poll t) := rfl
    rcases eq_or_ne t [] with rfl | ht
    · refine ⟨a, List.mem_cons_self a [], ?_⟩
      rw [hstep]
      simp [minTs]
    · rcases le_total (tsOf poll a) (minTs poll t) with hle | hle
      · exact ⟨a, List.mem_cons_self a t, by rw [hstep, min_eq_left hle]⟩
      · rcases ih ht with ⟨j, hj, hval⟩
        exact ⟨j, List.mem_cons_of_mem a hj, by rw [hstep, min_eq_right hle, hval]⟩

theorem mem_tiedEarliest (votes : List Nat) (poll : List PromptItem) (i : Nat) :
    i ∈ tiedEarliest votes poll ↔
      i ∈ tiedIdxs votes ∧ tsOf poll i = minTs poll (tiedIdxs votes) := by
  simp [tiedEarliest, List.mem_filter]

theorem tiedEarliest_ne_nil (votes : List Nat) (poll : List PromptItem)
    (h : votes ≠ []) : tiedEarliest votes poll ≠ [] := by
  rcases minTs_attained poll (tiedIdxs votes) (tiedIdxs_ne_nil votes h) with ⟨j, hj, hval⟩
  exact List.ne_nil_of_mem ((mem_tiedEarliest votes poll j).mpr ⟨hj, hval⟩)

theorem getD_zero_mem (l : List Nat) (h : l ≠ []) : l.getD 0 0 ∈ l := by
  cases l with
  | nil => exact absurd rfl h
  | cons a t => exact List.mem_cons_self a t

theorem winner_mem_tiedIdxs (votes : List Nat) (poll : List PromptItem)
    (pick : List Nat → Nat) (hpick : ∀ l : List Nat, l ≠ [] → pick l ∈ l)
    (hne : votes ≠ []) : winner_index votes poll pick ∈ tiedIdxs votes := by
  unfold winner_index
  rw [if_neg (by simpa [List.isEmpty_iff] using hne)]
  by_cases h1 : 1 < (tiedIdxs votes).length
  · rw [if_pos h1]
    by_cases h2 : 1 < (tiedEarliest votes poll).length
    · rw [if_pos h2]
      have hte : tiedEarliest votes poll ≠ [] := tiedEarliest_ne_nil votes poll hne
      exact ((mem_tiedEarliest votes poll _).mp (hpick _ hte)).1
    · rw [if_neg h2]
      have hte : tiedEarliest votes poll ≠ [] := tiedEarliest_ne_nil votes poll hne
      exact ((mem_tiedEarliest votes poll _).mp (getD_zero_mem _ hte)).1
  · rw [if_neg h1]
    exact getD_zero_mem _ (tiedIdxs_ne_nil votes hne)

theorem winner_ts_le (votes : List Nat) (poll : List PromptItem)
    (pick : List Nat → Nat) (hpick : ∀ l : List Nat, l ≠ [] → pick l ∈ l)
    (hne : votes ≠ []) :
    ∀ j ∈ tiedIdxs votes, tsOf poll (winner_index votes poll pick) ≤ tsOf poll j := by
  intro j hj
  unfold winner_index
  rw [if_neg (by simpa [List.isEmpty_iff] using hne)]
  by_cases h1 : 1 < (tiedIdxs votes).length
  · rw [if_pos h1]
    have hte : tiedEarliest votes poll ≠ [] := tiedEarliest_ne_nil votes poll hne
    by_cases h2 : 1 < (tiedEarliest votes poll).length
    · rw [if_pos h2]
      have hw := (mem_tiedEarliest votes poll _).mp (hpick _ hte)
      rw [hw.2]
      exact minTs_le poll (tiedIdxs votes) j hj
    · rw [if_neg h2]
      have hw := (mem_tiedEarliest votes poll _).mp (getD_zero_mem _ hte)
      rw [hw.2]
      exact minTs_le poll (tiedIdxs votes) j hj
  · rw [if_neg h1]
    have htied : tiedIdxs votes ≠ [] := tiedIdxs_ne_nil votes hne
    have hlen : (tiedIdxs votes).length = 1 := by
      have := List.length_pos.mpr htied
      omega
    rcases List.length_eq_one.mp hlen with ⟨x, hx⟩
    rw [hx] at hj ⊢
    rcases List.mem_singleton.mp hj with rfl
    simp

theorem winner_random_case (votes : List Nat) (poll : List PromptItem)
    (pick : List Nat → Nat) (hpick : ∀ l : List Nat, l ≠ [] → pick l ∈ l)
    (hne : votes ≠ []) (h2 : 1 < (tiedEarliest votes poll).length) :
    winner_index votes poll pick = pick (tiedEarliest votes poll) ∧
    winner_index votes poll pick ∈ tiedEarliest votes poll := by
  have h1 : 1 < (tiedIdxs votes).length :=
    lt_of_lt_of_le h2 (List.length_filter_le _ _)
  have hte : tiedEarliest votes poll ≠ [] := tiedEarliest_ne_nil votes poll hne
  have : winner_index votes poll pick = pick (tiedEarliest votes poll) := by
    unfold winner_index
    rw [if_neg (by simpa [List.isEmpty_iff] using hne), if_pos h1, if_pos h2]
  exact ⟨this, this ▸ hpick _ hte⟩

theorem winner_concrete_example (pick : List Nat → Nat) (tsA tsB tsC : Nat)
    (hAB : tsA < tsB) :
    winner_index [3, 3, 1]
      [⟨1, "A", chars "a", tsA⟩, ⟨2, "B", chars "b", tsB⟩, ⟨3, "C", chars "c", tsC⟩] pick = 0 := by
  have htied : tiedIdxs [3, 3, 1] = [0, 1] := by decide
  set poll : List PromptItem :=
    [⟨1, "A", chars "a", tsA⟩, ⟨2, "B", chars "b", tsB⟩, ⟨3, "C", chars "c", tsC⟩] with hpoll
  have hts0 : tsOf poll 0 = (tsA : WithTop Nat) := rfl
  have hts1 : tsOf poll 1 = (tsB : WithTop Nat) := rfl
  have hmin : minTs poll [0, 1] = (tsA : WithTop Nat) := by
    show min (tsOf poll 0) (min (tsOf poll 1) ⊤) = (tsA : WithTop Nat)
    rw [hts0, hts1]
    rw [min_eq_left (le_top : (tsB : WithTop Nat) ≤ ⊤)]
    exact min_eq_left (le_of_lt (WithTop.coe_lt_coe.mpr hAB))
  have hte : tiedEarliest [3, 3, 1] poll = [0] := by
    unfold tiedEarliest
    rw [htied, hmin]
    have h0 : (tsOf poll 0 == (tsA : WithTop Nat)) = true := by
      rw [hts0]; exact beq_self_eq_true _
    have h1 : (tsOf poll 1 == (tsA : WithTop Nat)) = false := by
      rw [hts1]
      apply beq_eq_false_iff_ne.mpr
      intro hcontra
      have hcast : tsB = tsA := by exact_mod_cast hcontra
      omega
    simp [List.filter, h0, h1]
  unfold winner_index
  rw [if_neg (by simp), htied, hte]
  norm_num

/-- C4: the poll winner is the candidate with the maximum tally; among
candidates tied at the maximum the earliest submission timestamp wins, and
when the earliest timestamp is shared the winner is the random choice
among those remaining (random.choice modelled by the oracle pick, which
returns a member of the list it is given); for tallies A:3, B:3, C:1 with
A submitted before B, the winner is A. -/
theorem c4_winner_tiebreak (pick : List Nat → Nat)
    (hpick : ∀ l : List Nat, l ≠ [] → pick l ∈ l) :
    (∀ (votes : List Nat) (poll : List PromptItem), votes ≠ [] →
      (winner_index votes poll pick < votes.length ∧
        votes.getD (winner_index votes poll pick) 0 = maxVotes votes) ∧
      (∀ j ∈ tiedIdxs votes, tsOf poll (winner_index votes poll pick) ≤ tsOf poll j) ∧
      (1 < (tiedEarliest votes poll).length →
        winner_index votes poll pick = pick (tiedEarliest votes poll) ∧
        winner_index votes poll pick ∈ tiedEarliest votes poll)) ∧
    (∀ tsA tsB tsC : Nat, tsA < tsB →
      winner_index [3, 3, 1]
        [⟨1, "A", chars "a", tsA⟩, ⟨2, "B", chars "b", tsB⟩,
         ⟨3, "C", chars "c", tsC⟩] pick = 0) := by
  constructor
  · intro votes poll hne
    refine ⟨?_, winner_ts_le votes poll pick hpick hne, ?_⟩
    · have := (mem_tiedIdxs votes _).mp (winner_mem_tiedIdxs votes poll pick hpick hne)
      exact this
    · intro h2
      exact winner_random_case votes poll pick hpick hne h2
  · intro tsA tsB tsC hAB
    exact winner_concrete_example pick tsA tsB tsC hAB

theorem c4_winner_witness :
    winner_index [3, 3, 1]
      [⟨1, "A", chars "a", 10⟩, ⟨2, "B", chars "b", 20⟩, ⟨3, "C", chars "c", 5⟩]
      (fun l => l.getD 0 0) = 0 :=
  (c4_winner_tiebreak (fun l => l.getD 0 0) (fun l hl => getD_zero_mem l hl)).2
    10 20 5 (by omega)

/-! ### Theorems: bot poll engine invariants (C5) -/

theorem botReachable_inv (s : BotState) (h : BotReachable s) :
    ∀ l, s.currentPoll = some l → l ≠ [] ∧ s.isProcessing = true ∧ s.timerDone = false := by
  unfold BotReachable at h
  induction h with
  | refl => intro l hl; simp [initBot] at hl
  | @tail b c hsteps hstep ih =>
    cases hstep with
    | loopStart sel hproc hlen h5 hmem =>
      intro l hl
      have hl' : sel = l := by simpa [start_poll_session] using hl
      subst hl'
      refine ⟨?_, rfl, rfl⟩
      intro hnil
      rw [hnil] at h5
      simp at h5
    | loopFailsafe hproc htd =>
      intro l hl
      simp only at hl
      rcases ih l hl with ⟨-, -, htd'⟩
      rw [htd'] at htd
      cases htd
    | timerEnd =>
      intro l hl
      unfold end_poll_session at hl
      cases hcp : b.currentPoll with
      | none => rw [hcp] at hl; simp at hl
      | some poll =>
        cases poll with
        | nil =>
          rcases ih [] hcp with ⟨hnil, -, -⟩
          exact absurd rfl hnil
        | cons p ps => rw [hcp] at hl; simp at hl
    | voteCast idx =>
      intro l hl
      unfold cast_vote at hl ⊢
      by_cases hcond : pollOpen b = false ∨ b.pollVotes.length ≤ idx ∨ b.acceptingVotes = false
      · rw [if_pos hcond] at hl ⊢
        exact ih l hl
      · rw [if_neg hcond] at hl ⊢
        simp only at hl ⊢
        exact ih l hl
    | promptArrives p =>
      intro l hl
      simp only at hl
      exact ih l hl
    | forcePoll sel hproc hlen h5 hmem =>
      intro l hl
      have hl' : sel = l := by simpa [start_poll_session] using hl
      subst hl'
      refine ⟨?_, rfl, rfl⟩
      intro hnil
      rw [hnil] at h5
      simp at h5
      omega

/-- C5: in every reachable bot state at most one poll session exists and a
new one can start only when none is open (whenever the loop guard
`is_processing == False` holds, no poll is open); and a vote cast while no
poll is open, while votes are not accepted, or for an index outside the
tallies leaves the state (hence every tally) unchanged. -/
theorem c5_single_session_and_vote_noop :
    (∀ s : BotState, BotReachable s → s.isProcessing = false → s.currentPoll = none) ∧
    (∀ (s : BotState) (idx : Nat),
      pollOpen s = false ∨ s.pollVotes.length ≤ idx ∨ s.acceptingVotes = false →
      cast_vote s idx = s) := by
  constructor
  · intro s hreach hproc
    cases hcp : s.currentPoll with
    | none => rfl
    | some l =>
      rcases botReachable_inv s hreach l hcp with ⟨-, hp, -⟩
      rw [hp] at hproc
      cases hproc
  · intro s idx hcond
    unfold cast_vote
    rw [if_pos hcond]

theorem c5_witness :
    initBot.currentPoll = none ∧ cast_vote initBot 0 = initBot :=
  ⟨c5_single_session_and_vote_noop.1 initBot Relation.ReflTransGen.refl rfl,
   c5_single_session_and_vote_noop.2 initBot 0 (Or.inl rfl)⟩

/-! ### Theorems: backend store (C6, C7, C9) -/

theorem insertVoter_nodup (u : String) (l : List String) (h : l.Nodup) :
    (insertVoter u l).Nodup := by
  unfold insertVoter
  split
  · exact h
  · exact List.nodup_cons.mpr ⟨by assumption, h⟩

theorem insertVoter_mem (u : String) (l : List String) : u ∈ insertVoter u l := by
  unfold insertVoter
  split
  · assumption
  · exact List.mem_cons_self u l

theorem insertVoter_of_mem (u : String) (l : List String) (h : u ∈ l) :
    insertVoter u l = l := by
  unfold insertVoter
  rw [if_pos h]

theorem vote_noop (user : String) (sid : Nat) (st : BackendState)
    (h : st.submissions sid = none ∨
      ∃ s, st.submissions sid = some s ∧ s.status ≠ "queued") :
    vote user sid st = st := by
  rcases h with h | ⟨s, hs, hst⟩
  · simp [vote, h]
  · simp [vote, hs, hst]

theorem vote_queued_eq (user : String) (sid : Nat) (st : BackendState) (s : Submission)
    (hsub : st.submissions sid = some s) (hq : s.status = "queued") :
    vote user sid st = { st with
      votes := fun i => if i = sid then some (insertVoter user (voterList st sid)) else st.votes i,
      submissions := fun i =>
        if i = sid then some { s with votesCount := (insertVoter user (voterList st sid)).length }
        else st.submissions i } := by
  simp [vote, hsub, hq]

theorem backendState_update_self (st : BackendState)
    (A : Nat → Option (List String)) (B : Nat → Option Submission)
    (hA : A = st.votes) (hB : B = st.submissions) :
    { st with votes := A, submissions := B } = st := by
  subst hA
  subst hB
  rfl

theorem vote_idem (user : String) (sid : Nat) (st : BackendState) :
    vote user sid (vote user sid st) = vote user sid st := by
  cases hsub : st.submissions sid with
  | none =>
    have h1 := vote_noop user sid st (Or.inl hsub)
    rw [h1]
    exact h1
  | some s =>
    by_cases hq : s.status = "queued"
    · have h1 := vote_queued_eq user sid st s hsub hq
      set vs := insertVoter user (voterList st sid) with hvs
      have hsub1 : (vote user sid st).submissions sid = some { s with votesCount := vs.length } := by
        rw [h1]
        simp
      have hvl1 : voterList (vote user sid st) sid = vs := by
        rw [h1]
        simp [voterList]
      have hins : insertVoter user vs = vs := insertVoter_of_mem user vs (insertVoter_mem _ _)
      have h2 := vote_queued_eq user sid (vote user sid st)
        { s with votesCount := vs.length } hsub1 hq
      rw [hvl1, hins] at h2
      rw [h2]
      apply backendState_update_self
      · funext i
        by_cases hi : i = sid
        · subst hi
          rw [h1]
          simp
        · simp [hi]
      · funext i
        by_cases hi : i = sid
        · subst hi
          simp [hsub1]
        · simp [hi]
    · have h1 := vote_noop user sid st (Or.inr ⟨s, hsub, hq⟩)
      rw [h1]
      exact h1

theorem storeInv_init : StoreInv initBackend := by
  refine ⟨fun i _ => ⟨rfl, rfl, rfl⟩, fun i hi => rfl, fun i s hs => ?_⟩
  cases hs

theorem storeInv_sid_lt (st : BackendState) (h : StoreInv st) (sid : Nat) (s : Submission)
    (hsub : st.submissions sid = some s) : sid < st.nextId := by
  by_contra hge
  have := (h.1 sid (by omega)).1
  rw [this] at hsub
  cases hsub

theorem storeInv_vote (user : String) (sid : Nat) (st : BackendState) (h : StoreInv st) :
    StoreInv (vote user sid st) := by
  obtain ⟨hb, hd, hv⟩ := h
  cases hsub : st.submissions sid with
  | none =>
    rw [vote_noop user sid st (Or.inl hsub)]
    exact ⟨hb, hd, hv⟩
  | some s =>
    by_cases hq : s.status = "queued"
    · rw [vote_queued_eq user sid st s hsub hq]
      have hsidlt : sid < st.nextId := storeInv_sid_lt st ⟨hb, hd, hv⟩ sid s hsub
      refine ⟨?_, ?_, ?_⟩
      · intro i hi
        simp only at hi
        have hne : i ≠ sid := by omega
        simpa [hne] using hb i hi
      · intro i hi
        simp only at hi ⊢
        by_cases hie : i = sid
        · subst hie
          exact hd i (by rw [hsub]; simp)
        · rw [if_neg hie] at hi
          exact hd i hi
      · intro i s' hs'
        simp only [voterList] at hs' ⊢
        by_cases hie : i = sid
        · subst hie
          rw [if_pos rfl] at hs' ⊢
          have hs'' : { s with votesCount := (insertVoter user (voterList st i)).length } = s' := by
            injection hs'
          subst hs''
          refine ⟨rfl, ?_⟩
          exact insertVoter_nodup _ _ (hv i s hsub).2
        · rw [if_neg hie] at hs' ⊢
          exact hv i s' hs'
    · rw [vote_noop user sid st (Or.inr ⟨s, hsub, hq⟩)]
      exact ⟨hb, hd, hv⟩

theorem storeInv_submit (fP : List Char → Option (List Char)) (fA : List Char → Bool)
    (user kind : String) (rawText rawCode : List Char) (st : BackendState)
    (h : StoreInv st) : StoreInv (submit fP fA user kind rawText rawCode st).2 := by
  obtain ⟨hb, hd, hv⟩ := h
  unfold submit
  by_cases hk : kind == "prompt"
  · rw [if_pos hk]
    by_cases hempty : (pyStrip rawText).isEmpty || decide (500 < (pyStrip rawText).length)
    · rw [if_pos hempty]
      exact ⟨hb, hd, hv⟩
    · rw [if_neg hempty]
      cases hfp : fP (pyStrip rawText) with
      | some r => exact ⟨hb, hd, hv⟩
      | none =>
        simp only
        refine ⟨?_, ?_, ?_⟩
        · intro i hi
          simp only at hi
          have hne : i ≠ st.nextId := by omega
          have hge : st.nextId ≤ i := by omega
          simpa [hne] using hb i hge
        · intro i hi
          simp only at hi ⊢
          by_cases hie : i = st.nextId
          · subst hie
            exact (hb st.nextId le_rfl).2.1
          · rw [if_neg hie] at hi
            exact hd i hi
        · intro i s' hs'
          simp only [voterList] at hs' ⊢
          by_cases hie : i = st.nextId
          · subst hie
            rw [if_pos rfl] at hs'
            have hveq : st.votes st.nextId = none := (hb st.nextId le_rfl).2.2
            have hs'' : (⟨user, "prompt", pyStrip rawText, [], "queued", 0, none, none, none⟩ : Submission) = s' := by
              injection hs'
            subst hs''
            rw [hveq]
            exact ⟨rfl, List.nodup_nil⟩
          · rw [if_neg hie] at hs'
            exact hv i s' hs'
  · rw [if_neg hk]
    by_cases hk2 : kind == "actions"
    · rw [if_pos hk2]
      by_cases hfa : fA rawCode
      · rw [if_pos hfa]
        exact ⟨hb, hd, hv⟩
      · rw [if_neg hfa]
        simp only
        refine ⟨?_, ?_, ?_⟩
        · intro i hi
          simp only at hi
          have hne : i ≠ st.nextId := by omega
          have hge : st.nextId ≤ i := by omega
          simpa [hne] using hb i hge
        · intro i hi
          simp only at hi ⊢
          by_cases hie : i = st.nextId
          · subst hie
            exact (hb st.nextId le_rfl).2.1
          · rw [if_neg hie] at hi
            exact hd i hi
        · intro i s' hs'
          simp only [voterList] at hs' ⊢
          by_cases hie : i = st.nextId
          · subst hie
            rw [if_pos rfl] at hs'
            have hveq : st.votes st.nextId = none := (hb st.nextId le_rfl).2.2
            have hs'' : (⟨user, "actions", [], rawCode, "approved", 0, none, none, none⟩ : Submission) = s' := by
              injection hs'
            subst hs''
            rw [hveq]
            exact ⟨rfl, List.nodup_nil⟩
          · rw [if_neg hie] at hs'
            exact hv i s' hs'
    · rw [if_neg hk2]
      exact ⟨hb, hd, hv⟩

theorem storeInv_update_active (st : BackendState) (h : StoreInv st) (sid : Nat)
    (s s' : Submission) (hsub : st.submissions sid = some s)
    (hvc : s'.votesCount = s.votesCount) (st' : BackendState)
    (hsubs : st'.submissions = fun i => if i = sid then some s' else st.submissions i)
    (hvts : st'.votes = st.votes) (hhist : st'.history = st.history)
    (hnid : st'.nextId = st.nextId) : StoreInv st' := by
  obtain ⟨hb, hd, hv⟩ := h
  have hsidlt : sid < st.nextId := storeInv_sid_lt st ⟨hb, hd, hv⟩ sid s hsub
  refine ⟨?_, ?_, ?_⟩
  · intro i hi
    rw [hnid] at hi
    have hne : i ≠ sid := by omega
    rw [hsubs, hvts, hhist]
    simpa [hne] using hb i hi
  · intro i hi
    rw [hsubs] at hi
    rw [hhist]
    simp only at hi
    by_cases hie : i = sid
    · subst hie
      exact hd i (by rw [hsub]; simp)
    · rw [if_neg hie] at hi
      exact hd i hi
  · intro i s2 hs2
    rw [hsubs] at hs2
    simp only at hs2
    have hvl : voterList st' i = voterList st i := by
      unfold voterList
      rw [hvts]
    rw [hvl]
    by_cases hie : i = sid
    · subst hie
      rw [if_pos rfl] at hs2
      injection hs2 with hs2
      subst hs2
      rw [hvc]
      exact hv i s hsub
    · rw [if_neg hie] at hs2
      exact hv i s2 hs2

theorem storeInv_update_history (st : BackendState) (h : StoreInv st) (sid : Nat)
    (s s' : Submission) (hsub : st.history sid = some s) (st' : BackendState)
    (hsubs : st'.submissions = st.submissions)
    (hvts : st'.votes = st.votes)
    (hhist : st'.history = fun i => if i = sid then some s' else st.history i)
    (hnid : st'.nextId = st.nextId) : StoreInv st' := by
  obtain ⟨hb, hd, hv⟩ := h
  have hsidlt : sid < st.nextId := by
    by_contra hge
    have := (hb sid (by omega)).2.1
    rw [this] at hsub
    cases hsub
  have hact : st.submissions sid = none := by
    by_contra hne
    have := hd sid hne
    rw [this] at hsub
    cases hsub
  refine ⟨?_, ?_, ?_⟩
  · intro i hi
    rw [hnid] at hi
    have hne : i ≠ sid := by omega
    rw [hsubs, hvts, hhist]
    simpa [hne] using hb i hi
  · intro i hi
    rw [hsubs] at hi
    rw [hhist]
    simp only
    by_cases hie : i = sid
    · subst hie
      rw [hact] at hi
      exact absurd rfl hi
    · rw [if_neg hie]
      exact hd i hi
  · intro i s2 hs2
    rw [hsubs] at hs2
    have hvl : voterList st' i = voterList st i := by
      unfold voterList
      rw [hvts]
    rw [hvl]
    exact hv i s2 hs2

theorem storeInv_decide (sid : Nat) (ap : Bool) (st : BackendState) (h : StoreInv st) :
    StoreInv (decide_submission sid ap st) := by
  unfold decide_submission
  cases hsub : st.submissions sid with
  | none => exact h
  | some s =>
    simp only
    by_cases hq : (s.status == "queued") = true
    · rw [if_pos hq]
      cases ap with
      | true => exact h
      | false =>
        simp only [Bool.false_eq_true, if_false]
        exact storeInv_update_active st h sid s { s with status := "rejected" } hsub rfl _
          rfl rfl rfl rfl
    · rw [if_neg hq]
      exact h

theorem storeInv_moveOne (now : Nat) (st : BackendState) (sid : Nat) (h : StoreInv st) :
    StoreInv (moveOne now st sid) := by
  obtain ⟨hb, hd, hv⟩ := h
  unfold moveOne
  cases hsub : st.submissions sid with
  | none => exact ⟨hb, hd, hv⟩
  | some s =>
    simp only
    by_cases hq : (s.status == "queued") = true
    · rw [if_pos hq]
      have hsidlt : sid < st.nextId := storeInv_sid_lt st ⟨hb, hd, hv⟩ sid s hsub
      refine ⟨?_, ?_, ?_⟩
      · intro i hi
        simp only at hi
        have hne : i ≠ sid := by omega
        simpa [hne] using hb i hi
      · intro i hi
        simp only at hi ⊢
        by_cases hie : i = sid
        · subst hie
          rw [if_pos rfl] at hi
          exact absurd rfl hi
        · rw [if_neg hie] at hi ⊢
          exact hd i hi
      · intro i s2 hs2
        simp only [voterList] at hs2 ⊢
        by_cases hie : i = sid
        · subst hie
          rw [if_pos rfl] at hs2
          cases hs2
        · rw [if_neg hie] at hs2 ⊢
          exact hv i s2 hs2
    · rw [if_neg hq]
      exact ⟨hb, hd, hv⟩

theorem storeInv_move (ids : List Nat) (now : Nat) (st : BackendState) (h : StoreInv st) :
    StoreInv (move_to_history ids now st) := by
  induction ids generalizing st with
  | nil => exact h
  | cons a t ih => exact ih (moveOne now st a) (storeInv_moveOne now st a h)

theorem storeInv_promptWin (sid : Nat) (st : BackendState) (h : StoreInv st) :
    StoreInv (prompt_win sid st) := by
  unfold prompt_win
  cases hsub : st.submissions sid with
  | some s =>
    simp only
    by_cases hk : (s.kind == "prompt") = true
    · rw [if_pos hk]
      exact storeInv_update_active st h sid s
        { s with outcome := some "won", cleanText := some (prepare_prompt_for_ai s.text) }
        hsub rfl _ rfl rfl rfl rfl
    · rw [if_neg hk]
      exact h
  | none =>
    cases hhist : st.history sid with
    | some s =>
      simp only
      by_cases hk : (s.kind == "prompt") = true
      · rw [if_pos hk]
        exact storeInv_update_history st h sid s _ hhist _ rfl rfl rfl rfl
      · rw [if_neg hk]
        exact h
    | none => exact h

theorem storeInv_cleanUpdate (sid : Nat) (txt : List Char) (st : BackendState)
    (h : StoreInv st) : StoreInv (prompt_clean_update sid txt st) := by
  unfold prompt_clean_update
  cases hsub : st.submissions sid with
  | some s =>
    simp only
    by_cases hk : (s.kind == "prompt") = true
    · rw [if_pos hk]
      exact storeInv_update_active st h sid s { s with cleanText := some (pyStrip txt) }
        hsub rfl _ rfl rfl rfl rfl
    · rw [if_neg hk]
      exact h
  | none =>
    cases hhist : st.history sid with
    | some s =>
      simp only
      by_cases hk : (s.kind == "prompt") = true
      · rw [if_pos hk]
        exact storeInv_update_history st h sid s _ hhist _ rfl rfl rfl rfl
      · rw [if_neg hk]
        exact h
    | none => exact h

theorem storeInv_cleanRebuild (sid : Nat) (cor : List Char) (st : BackendState)
    (h : StoreInv st) : StoreInv (prompt_clean_rebuild sid cor st) := by
  unfold prompt_clean_rebuild
  cases hsub : st.submissions sid with
  | some s =>
    simp only
    by_cases hk : (s.kind == "prompt") = true
    · rw [if_pos hk]
      exact storeInv_update_active st h sid s
        { s with cleanText := some (prepare_prompt_for_ai cor) }
        hsub rfl _ rfl rfl rfl rfl
    · rw [if_neg hk]
      exact h
  | none =>
    cases hhist : st.history sid with
    | some s =>
      simp only
      by_cases hk : (s.kind == "prompt") = true
      · rw [if_pos hk]
        exact storeInv_update_history st h sid s _ hhist _ rfl rfl rfl rfl
      · rw [if_neg hk]
        exact h
    | none => exact h

theorem storeInv_clear (st : BackendState) (_h : StoreInv st) :
    StoreInv (clear_backend st) := by
  refine ⟨fun i _ => ⟨rfl, rfl, rfl⟩, fun i _ => rfl, fun i s hs => ?_⟩
  cases hs

theorem storeInv_applyOp (fP : List Char → Option (List Char)) (fA : List Char → Bool)
    (op : BOp) (st : BackendState) (h : StoreInv st) :
    StoreInv (applyOp fP fA op st) := by
  cases op with
  | submit u k t c => exact storeInv_submit fP fA u k t c st h
  | vote u sid => exact storeInv_vote u sid st h
  | decideSubmission sid ap => exact storeInv_decide sid ap st h
  | moveToHistory ids now => exact storeInv_move ids now st h
  | promptWin sid => exact storeInv_promptWin sid st h
  | cleanUpdate sid txt => exact storeInv_cleanUpdate sid txt st h
  | cleanRebuild sid cor => exact storeInv_cleanRebuild sid cor st h
  | popApproved => exact h
  | popApprovedPrompt => exact h
  | clearAll => exact storeInv_clear st h

theorem storeInv_applyOps (fP : List Char → Option (List Char)) (fA : List Char → Bool)
    (ops : List BOp) (st : BackendState) (h : StoreInv st) :
    StoreInv (applyOps fP fA ops st) := by
  induction ops generalizing st with
  | nil => exact h
  | cons op t ih => exact ih (applyOp fP fA op st) (storeInv_applyOp fP fA op st h)

theorem reachable_storeInv (fP : List Char → Option (List Char)) (fA : List Char → Bool)
    (st : BackendState) (h : BackendReachable fP fA st) : StoreInv st := by
  rcases h with ⟨ops, rfl⟩
  exact storeInv_applyOps fP fA ops initBackend storeInv_init

theorem vote_voterList_after (user : String) (sid : Nat) (st : BackendState)
    (s : Submission) (hsub : st.submissions sid = some s) (hq : s.status = "queued") :
    voterList (vote user sid st) sid = insertVoter user (voterList st sid) := by
  rw [vote_queued_eq user sid st s hsub hq]
  simp [voterList]

/-- C9: the backend vote operation deduplicates by voter identity: in
every reachable state, every active submission's recorded count equals the
size of its duplicate-free voter set; a repeat vote by the same user for
the same submission leaves the whole state unchanged (vote is idempotent
per id and user); a vote for a missing or non-queued id changes no state;
and an accepted vote adds exactly the voter to the set. -/
theorem c9_vote_dedup :
    (∀ (user : String) (sid : Nat) (st : BackendState),
        vote user sid (vote user sid st) = vote user sid st) ∧
    (∀ (fP : List Char → Option (List Char)) (fA : List Char → Bool) (st : BackendState),
        BackendReachable fP fA st →
        ∀ sid s, st.submissions sid = some s →
          s.votesCount = (voterList st sid).length ∧ (voterList st sid).Nodup) ∧
    (∀ (user : String) (sid : Nat) (st : BackendState),
        (st.submissions sid = none ∨
          ∃ s, st.submissions sid = some s ∧ s.status ≠ "queued") →
        vote user sid st = st) ∧
    (∀ (user : String) (sid : Nat) (st : BackendState) (s : Submission),
        st.submissions sid = some s → s.status = "queued" →
        voterList (vote user sid st) sid = insertVoter user (voterList st sid)) := by
  refine ⟨vote_idem, ?_, vote_noop, vote_voterList_after⟩
  intro fP fA st hreach sid s hsub
  exact (reachable_storeInv fP fA st hreach).2.2 sid s hsub

theorem c9_vote_dedup_witness :
    voterList (vote "bob" 1 (applyOps (fun _ => none) (fun _ => false)
        [.submit "alice" "prompt" (chars "tell a story") []] initBackend)) 1 = ["bob"] ∧
    vote "bob" 1 initBackend = initBackend := by
  constructor
  · have hsub : (applyOps (fun _ => none) (fun _ => false)
        [.submit "alice" "prompt" (chars "tell a story") []] initBackend).submissions 1 =
        some ⟨"alice", "prompt", chars "tell a story", [], "queued", 0, none, none, none⟩ := by
      rfl
    have h := c9_vote_dedup.2.2.2 "bob" 1 _ _ hsub rfl
    rw [h]
    rfl
  · exact c9_vote_dedup.2.2.1 "bob" 1 initBackend (Or.inl rfl)

theorem vote_nextId (user : String) (sid : Nat) (st : BackendState) :
    (vote user sid st).nextId = st.nextId := by
  unfold vote
  cases st.submissions sid with
  | none => rfl
  | some s =>
    simp only
    split <;> rfl

theorem decide_nextId (sid : Nat) (ap : Bool) (st : BackendState) :
    (decide_submission sid ap st).nextId = st.nextId := by
  unfold decide_submission
  cases st.submissions sid with
  | none => rfl
  | some s =>
    simp only
    split
    · split <;> rfl
    · rfl

theorem moveOne_nextId (now : Nat) (st : BackendState) (sid : Nat) :
    (moveOne now st sid).nextId = st.nextId := by
  unfold moveOne
  cases st.submissions sid with
  | none => rfl
  | some s =>
    simp only
    split <;> rfl

theorem move_nextId (ids : List Nat) (now : Nat) (st : BackendState) :
    (move_to_history ids now st).nextId = st.nextId := by
  induction ids generalizing st with
  | nil => rfl
  | cons a t ih =>
    have : move_to_history (a :: t) now st = move_to_history t now (moveOne now st a) := rfl
    rw [this, ih, moveOne_nextId]

theorem promptWin_nextId (sid : Nat) (st : BackendState) :
    (prompt_win sid st).nextId = st.nextId := by
  unfold prompt_win
  cases st.submissions sid with
  | some s =>
    simp only
    split <;> rfl
  | none =>
    cases st.history sid with
    | some s =>
      simp only
      split <;> rfl
    | none => rfl

theorem cleanUpdate_nextId (sid : Nat) (txt : List Char) (st : BackendState) :
    (prompt_clean_update sid txt st).nextId = st.nextId := by
  unfold prompt_clean_update
  cases st.submissions sid with
  | some s =>
    simp only
    split <;> rfl
  | none =>
    cases st.history sid with
    | some s =>
      simp only
      split <;> rfl
    | none => rfl

theorem cleanRebuild_nextId (sid : Nat) (cor : List Char) (st : BackendState) :
    (prompt_clean_rebuild sid cor st).nextId = st.nextId := by
  unfold prompt_clean_rebuild
  cases st.submissions sid with
  | some s =>
    simp only
    split <;> rfl
  | none =>
    cases st.history sid with
    | some s =>
      simp only
      split <;> rfl
    | none => rfl

theorem submit_nextId_le (fP : List Char → Option (List Char)) (fA : List Char → Bool)
    (u k : String) (t c : List Char) (st : BackendState) :
    st.nextId ≤ (submit fP fA u k t c st).2.nextId := by
  unfold submit
  by_cases h1 : (k == "prompt") = true
  · rw [if_pos h1]
    by_cases h2 : ((pyStrip t).isEmpty || decide (500 < (pyStrip t).length)) = true
    · rw [if_pos h2]
    · rw [if_neg h2]
      cases fP (pyStrip t) with
      | some r => exact le_rfl
      | none =>
        simp only
        omega
  · rw [if_neg h1]
    by_cases h3 : (k == "actions") = true
    · rw [if_pos h3]
      by_cases h4 : fA c = true
      · rw [if_pos h4]
      · rw [if_neg h4]
        simp only
        omega
    · rw [if_neg h3]

theorem applyOp_nextId_mono (fP : List Char → Option (List Char)) (fA : List Char → Bool)
    (op : BOp) (st : BackendState) : st.nextId ≤ (applyOp fP fA op st).nextId := by
  cases op with
  | submit u k t c => exact submit_nextId_le fP fA u k t c st
  | vote u sid => exact le_of_eq (vote_nextId u sid st).symm
  | decideSubmission sid ap => exact le_of_eq (decide_nextId sid ap st).symm
  | moveToHistory ids now => exact le_of_eq (move_nextId ids now st).symm
  | promptWin sid => exact le_of_eq (promptWin_nextId sid st).symm
  | cleanUpdate sid txt => exact le_of_eq (cleanUpdate_nextId sid txt st).symm
  | cleanRebuild sid cor => exact le_of_eq (cleanRebuild_nextId sid cor st).symm
  | popApproved => exact le_rfl
  | popApprovedPrompt => exact le_rfl
  | clearAll => exact le_rfl

theorem submit_success_id (fP : List Char → Option (List Char)) (fA : List Char → Bool)
    (u k : String) (t c : List Char) (st : BackendState) (sid : Nat)
    (h : (submit fP fA u k t c st).1 = some sid) :
    sid = st.nextId ∧ (submit fP fA u k t c st).2.nextId = st.nextId + 1 := by
  unfold submit at h ⊢
  by_cases h1 : (k == "prompt") = true
  · rw [if_pos h1] at h ⊢
    by_cases h2 : ((pyStrip t).isEmpty || decide (500 < (pyStrip t).length)) = true
    · rw [if_pos h2] at h
      cases h
    · rw [if_neg h2] at h ⊢
      cases hfp : fP (pyStrip t) with
      | some r =>
        rw [hfp] at h
        cases h
      | none =>
        rw [hfp] at h
        have h3 : st.nextId = sid := by injection h
        exact ⟨h3.symm, rfl⟩
  · rw [if_neg h1] at h ⊢
    by_cases h3 : (k == "actions") = true
    · rw [if_pos h3] at h ⊢
      by_cases h4 : fA c = true
      · rw [if_pos h4] at h
        cases h
      · rw [if_neg h4] at h ⊢
        have h5 : (some st.nextId : Option Nat) = some sid := h
        have h6 : st.nextId = sid := by injection h5
        exact ⟨h6.symm, rfl⟩
    · rw [if_neg h3] at h
      cases h

theorem submit_rejected_noop (fP : List Char → Option (List Char)) (fA : List Char → Bool)
    (u k : String) (t c : List Char) (st : BackendState)
    (h : (submit fP fA u k t c st).1 = none) : (submit fP fA u k t c st).2 = st := by
  unfold submit at h ⊢
  by_cases h1 : (k == "prompt") = true
  · rw [if_pos h1] at h ⊢
    by_cases h2 : ((pyStrip t).isEmpty || decide (500 < (pyStrip t).length)) = true
    · rw [if_pos h2]
    · rw [if_neg h2] at h ⊢
      cases hfp : fP (pyStrip t) with
      | some r => rfl
      | none =>
        rw [hfp] at h
        exact Option.noConfusion h
  · rw [if_neg h1] at h ⊢
    by_cases h3 : (k == "actions") = true
    · rw [if_pos h3] at h ⊢
      by_cases h4 : fA c = true
      · rw [if_pos h4]
      · rw [if_neg h4] at h
        exact Option.noConfusion (h : (some st.nextId : Option Nat) = none)
    · rw [if_neg h3]

theorem assignedIds_lb (fP : List Char → Option (List Char)) (fA : List Char → Bool)
    (ops : List BOp) (st : BackendState) :
    ∀ j ∈ assignedIds fP fA ops st, st.nextId ≤ j := by
  induction ops generalizing st with
  | nil => intro j hj; cases hj
  | cons op t ih =>
    intro j hj
    unfold assignedIds at hj
    rcases List.mem_append.mp hj with hj | hj
    · cases hres : submitResult fP fA op st with
      | none =>
        rw [hres] at hj
        cases hj
      | some sid =>
        rw [hres] at hj
        have hj' : j = sid := by simpa [Option.toList] using hj
        subst hj'
        cases op with
        | submit u k tx c =>
          have := (submit_success_id fP fA u k tx c st j hres).1
          omega
        | vote u s => cases hres
        | decideSubmission s a => cases hres
        | moveToHistory i n => cases hres
        | promptWin s => cases hres
        | cleanUpdate s x => cases hres
        | cleanRebuild s x => cases hres
        | popApproved => cases hres
        | popApprovedPrompt => cases hres
        | clearAll => cases hres
    · exact le_trans (applyOp_nextId_mono fP fA op st) (ih (applyOp fP fA op st) j hj)

theorem assignedIds_pairwise (fP : List Char → Option (List Char)) (fA : List Char → Bool)
    (ops : List BOp) (st : BackendState) :
    (assignedIds fP fA ops st).Pairwise (· < ·) := by
  induction ops generalizing st with
  | nil => exact List.Pairwise.nil
  | cons op t ih =>
    unfold assignedIds
    cases hres : submitResult fP fA op st with
    | none => simpa [Option.toList] using ih (applyOp fP fA op st)
    | some sid =>
      simp only [Option.toList, List.singleton_append]
      refine List.pairwise_cons.mpr ⟨?_, ih (applyOp fP fA op st)⟩
      intro j hj
      have hj' := assignedIds_lb fP fA t (applyOp fP fA op st) j hj
      cases op with
      | submit u k tx c =>
        obtain ⟨hsid, hnext⟩ := submit_success_id fP fA u k tx c st sid hres
        have : (applyOp fP fA (.submit u k tx c) st).nextId = st.nextId + 1 := hnext
        omega
      | vote u s => cases hres
      | decideSubmission s a => cases hres
      | moveToHistory i n => cases hres
      | promptWin s => cases hres
      | cleanUpdate s x => cases hres
      | cleanRebuild s x => cases hres
      | popApproved => cases hres
      | popApprovedPrompt => cases hres
      | clearAll => cases hres

/-- C7: submission ids are monotonically increasing and never reused:
along any run of backend operations, from any starting state, the ids
assigned by successful submits are strictly increasing in order (so never
reused, even after archival or a clear, since NEXT_ID is never reset); a
successful submit returns the current NEXT_ID and increments it; a
rejected submit leaves the state (hence NEXT_ID) unchanged. -/
theorem c7_ids_monotonic :
    (∀ (fP : List Char → Option (List Char)) (fA : List Char → Bool)
        (ops : List BOp) (st : BackendState),
        (assignedIds fP fA ops st).Pairwise (· < ·)) ∧
    (∀ (fP : List Char → Option (List Char)) (fA : List Char → Bool)
        (u k : String) (t c : List Char) (st : BackendState) (sid : Nat),
        (submit fP fA u k t c st).1 = some sid →
        sid = st.nextId ∧ (submit fP fA u k t c st).2.nextId = st.nextId + 1) ∧
    (∀ (fP : List Char → Option (List Char)) (fA : List Char → Bool)
        (u k : String) (t c : List Char) (st : BackendState),
        (submit fP fA u k t c st).1 = none → (submit fP fA u k t c st).2 = st) :=
  ⟨assignedIds_pairwise, submit_success_id, submit_rejected_noop⟩

theorem c7_ids_monotonic_witness :
    (1 = initBackend.nextId ∧
      (submit (fun _ => none) (fun _ => false) "alice" "prompt"
        (chars "tell a story") [] initBackend).2.nextId = initBackend.nextId + 1) ∧
    (submit (fun _ => none) (fun _ => false) "bob" "bogus" [] [] initBackend).2 =
      initBackend :=
  ⟨c7_ids_monotonic.2.1 (fun _ => none) (fun _ => false) "alice" "prompt"
      (chars "tell a story") [] initBackend 1 rfl,
   c7_ids_monotonic.2.2 (fun _ => none) (fun _ => false) "bob" "bogus" [] []
      initBackend rfl⟩

theorem moveOne_other (now : Nat) (st : BackendState) (sid j : Nat) (hne : j ≠ sid) :
    (moveOne now st sid).submissions j = st.submissions j ∧
    (moveOne now st sid).votes j = st.votes j ∧
    (moveOne now st sid).history j = st.history j := by
  unfold moveOne
  cases st.submissions sid with
  | none => exact ⟨rfl, rfl, rfl⟩
  | some s =>
    simp only
    split
    · simp [hne]
    · exact ⟨rfl, rfl, rfl⟩

theorem moveOne_skip (now : Nat) (st : BackendState) (sid : Nat)
    (h : ∀ s, st.submissions sid = some s → s.status ≠ "queued") :
    moveOne now st sid = st := by
  unfold moveOne
  cases hsub : st.submissions sid with
  | none => rfl
  | some s =>
    simp only
    rw [if_neg]
    simpa using h s hsub

theorem moveOne_self_queued (now : Nat) (st : BackendState) (sid : Nat) (s : Submission)
    (hsub : st.submissions sid = some s) (hq : s.status = "queued") :
    (moveOne now st sid).submissions sid = none ∧
    (moveOne now st sid).votes sid = none ∧
    (moveOne now st sid).history sid =
      some { s with status := "processed", processedAt := some now } := by
  unfold moveOne
  rw [hsub]
  simp only
  rw [if_pos (by simp [hq])]
  exact ⟨by simp, by simp, by simp⟩

theorem move_preserves_removed (ids : List Nat) (now : Nat) (st : BackendState) (sid : Nat)
    (h : st.submissions sid = none) :
    (move_to_history ids now st).submissions sid = none ∧
    (move_to_history ids now st).votes sid = st.votes sid ∧
    (move_to_history ids now st).history sid = st.history sid := by
  induction ids generalizing st with
  | nil => exact ⟨h, rfl, rfl⟩
  | cons a t ih =>
    have hstep : move_to_history (a :: t) now st = move_to_history t now (moveOne now st a) := rfl
    rw [hstep]
    by_cases hae : sid = a
    · subst hae
      have hskip : moveOne now st sid = st := moveOne_skip now st sid (by
        intro s hs
        rw [h] at hs
        cases hs)
      rw [hskip]
      exact ih st h
    · obtain ⟨h1, h2, h3⟩ := moveOne_other now st a sid hae
      have := ih (moveOne now st a) (by rw [h1]; exact h)
      rw [h2, h3] at this
      exact this

/-- C6: move_to_history moves exactly the listed ids that are active with
status queued: each moved id ends up absent from the active store and the
vote map and present in history with status processed and the processing
time recorded; ids not in the list, and listed ids that are not active
queued submissions, are left completely unchanged; and in every reachable
state no id is simultaneously in the active store and in history. -/
theorem c6_move_to_history_atomic :
    (∀ (ids : List Nat) (now : Nat) (st : BackendState) (sid : Nat) (s : Submission),
        sid ∈ ids → st.submissions sid = some s → s.status = "queued" →
        (move_to_history ids now st).submissions sid = none ∧
        (move_to_history ids now st).votes sid = none ∧
        (move_to_history ids now st).history sid =
          some { s with status := "processed", processedAt := some now }) ∧
    (∀ (ids : List Nat) (now : Nat) (st : BackendState) (j : Nat),
        (j ∉ ids ∨ ∀ s, st.submissions j = some s → s.status ≠ "queued") →
        (move_to_history ids now st).submissions j = st.submissions j ∧
        (move_to_history ids now st).votes j = st.votes j ∧
        (move_to_history ids now st).history j = st.history j) ∧
    (∀ (fP : List Char → Option (List Char)) (fA : List Char → Bool) (st : BackendState),
        BackendReachable fP fA st →
        ∀ i, ¬(st.submissions i ≠ none ∧ st.history i ≠ none)) := by
  refine ⟨?_, ?_, ?_⟩
  · intro ids now st sid s hmem hsub hq
    induction ids generalizing st with
    | nil => cases hmem
    | cons a t ih =>
      have hstep : move_to_history (a :: t) now st = move_to_history t now (moveOne now st a) := rfl
      rw [hstep]
      by_cases hae : sid = a
      · subst hae
        obtain ⟨h1, h2, h3⟩ := moveOne_self_queued now st sid s hsub hq
        obtain ⟨g1, g2, g3⟩ := move_preserves_removed t now (moveOne now st sid) sid h1
        exact ⟨g1, by rw [g2, h2], by rw [g3, h3]⟩
      · have hmem' : sid ∈ t := by
          cases List.mem_cons.mp hmem with
          | inl hx => exact absurd hx hae
          | inr hx => exact hx
        obtain ⟨h1, h2, h3⟩ := moveOne_other now st a sid hae
        exact ih (moveOne now st a) hmem' (by rw [h1]; exact hsub)
  · intro ids now st j hcond
    induction ids generalizing st with
    | nil => exact ⟨rfl, rfl, rfl⟩
    | cons a t ih =>
      have hstep : move_to_history (a :: t) now st = move_to_history t now (moveOne now st a) := rfl
      rw [hstep]
      rcases hcond with hnm | hprop
      · have haj : j ≠ a := fun hx => hnm (hx ▸ List.mem_cons_self a t)
        have hnt : j ∉ t := fun hx => hnm (List.mem_cons_of_mem a hx)
        obtain ⟨h1, h2, h3⟩ := moveOne_other now st a j haj
        have hrec := ih (moveOne now st a) (Or.inl hnt)
        rw [h1, h2, h3] at hrec
        exact hrec
      · by_cases haj : j = a
        · subst haj
          have hskip : moveOne now st j = st := moveOne_skip now st j hprop
          rw [hskip]
          exact ih st (Or.inr hprop)
        · obtain ⟨h1, h2, h3⟩ := moveOne_other now st a j haj
          have hrec := ih (moveOne now st a) (Or.inr (by
            intro s hs
            rw [h1] at hs
            exact hprop s hs))
          rw [h1, h2, h3] at hrec
          exact hrec
  · intro fP fA st hreach i hcontra
    have hd := (reachable_storeInv fP fA st hreach).2.1
    exact hcontra.2 (hd i hcontra.1)

theorem c6_move_to_history_witness :
    (move_to_history [1] 7 (applyOps (fun _ => none) (fun _ => false)
        [.submit "alice" "prompt" (chars "tell a story") []] initBackend)).submissions 1 = none ∧
    (move_to_history [1] 7 (applyOps (fun _ => none) (fun _ => false)
        [.submit "alice" "prompt" (chars "tell a story") []] initBackend)).history 1 =
      some ⟨"alice", "prompt", chars "tell a story", [], "processed", 0, none, none, some 7⟩ ∧
    (move_to_history [1] 7 (applyOps (fun _ => none) (fun _ => false)
        [.submit "alice" "prompt" (chars "tell a story") []] initBackend)).submissions 2 =
      (applyOps (fun _ => none) (fun _ => false)
        [.submit "alice" "prompt" (chars "tell a story") []] initBackend).submissions 2 := by
  have hsub : (applyOps (fun _ => none) (fun _ => false)
      [.submit "alice" "prompt" (chars "tell a story") []] initBackend).submissions 1 =
      some ⟨"alice", "prompt", chars "tell a story", [], "queued", 0, none, none, none⟩ := rfl
  obtain ⟨g1, g2, g3⟩ := c6_move_to_history_atomic.1 [1] 7 _ 1 _
    (by decide) hsub rfl
  refine ⟨g1, by rw [g3], ?_⟩
  exact (c6_move_to_history_atomic.2.1 [1] 7 _ 2 (Or.inl (by decide))).1

/-! ### Theorems: conditional idempotence of `prepare_prompt_for_ai` (C2) -/

theorem toNat_ofNat_small (n : Nat) (h : n < 55296) : (Char.ofNat n).toNat = n := by
  have hv : n.isValidChar := Or.inl h
  simp only [Char.ofNat, dif_pos hv, Char.ofNatAux, Char.toNat, UInt32.ofNat']
  simp [UInt32.toNat, BitVec.toNat_ofNat]

theorem char_eq_of_toNat {a b : Char} (h : a.toNat = b.toNat) : a = b := by
  apply Char.ext
  exact UInt32.ext h

theorem char_beq_eq_toNat (a b : Char) : (a == b) = decide (a.toNat = b.toNat) := by
  by_cases h : a.toNat = b.toNat
  · rw [decide_eq_true h, beq_iff_eq.mpr (char_eq_of_toNat h)]
  · rw [decide_eq_false h]
    apply beq_eq_false_iff_ne.mpr
    intro hab
    exact h (by rw [hab])

theorem pyToUpper_spec (c : Char) :
    (pyToUpper c = c ∧ ¬(97 ≤ c.toNat ∧ c.toNat ≤ 122)) ∨
    ((pyToUpper c).toNat = c.toNat - 32 ∧ 97 ≤ c.toNat ∧ c.toNat ≤ 122) := by
  unfold pyToUpper
  by_cases h : 97 ≤ c.toNat ∧ c.toNat ≤ 122
  · right
    rw [if_pos h]
    exact ⟨toNat_ofNat_small _ (by omega), h⟩
  · left
    rw [if_neg h]
    exact ⟨rfl, h⟩

theorem pyToUpper_idem (c : Char) : pyToUpper (pyToUpper c) = pyToUpper c := by
  rcases pyToUpper_spec c with ⟨heq, hr⟩ | ⟨hnat, hr⟩
  · rw [heq, heq]
  · rcases pyToUpper_spec (pyToUpper c) with ⟨heq2, hr2⟩ | ⟨hnat2, hr2⟩
    · exact heq2
    · exact absurd hr2 (by omega)

theorem pyIsSpace_toNat (c : Char) : pyIsSpace c = true ↔
    (c.toNat = 32 ∨ c.toNat = 9 ∨ c.toNat = 10 ∨ c.toNat = 13 ∨ c.toNat = 11 ∨ c.toNat = 12) := by
  unfold pyIsSpace
  simp only [Bool.or_eq_true, decide_eq_true_eq]
  tauto

theorem pyIsSpace_pyToUpper (c : Char) : pyIsSpace (pyToUpper c) = pyIsSpace c := by
  rcases pyToUpper_spec c with ⟨heq, hr⟩ | ⟨hnat, hr⟩
  · rw [heq]
  · cases hs : pyIsSpace c with
    | true =>
      rw [pyIsSpace_toNat c] at hs
      omega
    | false =>
      cases hs2 : pyIsSpace (pyToUpper c) with
      | true =>
        rw [pyIsSpace_toNat _] at hs2
        omega
      | false => rfl

theorem isPunctCls_toNat (c : Char) : isPunctCls c = true ↔
    (c.toNat = 33 ∨ c.toNat = 63 ∨ c.toNat = 46 ∨ c.toNat = 44) := by
  unfold isPunctCls
  rw [Bool.or_eq_true, Bool.or_eq_true, Bool.or_eq_true]
  rw [char_beq_eq_toNat, char_beq_eq_toNat, char_beq_eq_toNat, char_beq_eq_toNat]
  simp only [decide_eq_true_eq]
  tauto

theorem isPunctCls_pyToUpper (c : Char) : isPunctCls (pyToUpper c) = isPunctCls c := by
  rcases pyToUpper_spec c with ⟨heq, hr⟩ | ⟨hnat, hr⟩
  · rw [heq]
  · cases hs : isPunctCls c with
    | true =>
      rw [isPunctCls_toNat c] at hs
      omega
    | false =>
      cases hs2 : isPunctCls (pyToUpper c) with
      | true =>
        rw [isPunctCls_toNat _] at hs2
        omega
      | false => rfl

theorem pyToUpper_ne_backtick (c : Char) (h : c ≠ backtick) : pyToUpper c ≠ backtick := by
  rcases pyToUpper_spec c with ⟨heq, hr⟩ | ⟨hnat, hr⟩
  · rw [heq]; exact h
  · intro hcontra
    have : (pyToUpper c).toNat = 96 := by rw [hcontra]; rfl
    omega

theorem pyToUpper_space_eq (c : Char) (h : pyToUpper c = ' ') : c = ' ' := by
  rcases pyToUpper_spec c with ⟨heq, hr⟩ | ⟨hnat, hr⟩
  · rw [heq] at h; exact h
  · have : (pyToUpper c).toNat = 32 := by rw [h]; rfl
    omega

theorem terminalPunct_toNat (c : Char) : terminalPunct c = true ↔
    (c.toNat = 46 ∨ c.toNat = 33 ∨ c.toNat = 63) := by
  unfold terminalPunct
  rw [Bool.or_eq_true, Bool.or_eq_true]
  rw [char_beq_eq_toNat, char_beq_eq_toNat, char_beq_eq_toNat]
  simp only [decide_eq_true_eq]
  tauto

theorem terminalPunct_nonspace (c : Char) (h : terminalPunct c = true) :
    pyIsSpace c = false := by
  rw [terminalPunct_toNat] at h
  cases hs : pyIsSpace c with
  | true => rw [pyIsSpace_toNat] at hs; omega
  | false => rfl

theorem noAdjPair_tail (p : Char → Char → Bool) (a : Char) (t : List Char)
    (h : noAdjPair p (a :: t) = true) : noAdjPair p t = true := by
  cases t with
  | nil => rfl
  | cons b t' =>
    unfold noAdjPair at h
    simp only [Bool.and_eq_true] at h
    exact h.2

theorem noAdjPair_cons (p : Char → Char → Bool) (a b : Char) (t : List Char)
    (h : noAdjPair p (a :: b :: t) = true) : p a b = false := by
  unfold noAdjPair at h
  simp only [Bool.and_eq_true, Bool.not_eq_true'] at h
  exact h.1

theorem noAdjPair_mk (p : Char → Char → Bool) (a b : Char) (t : List Char)
    (h1 : p a b = false) (h2 : noAdjPair p (b :: t) = true) :
    noAdjPair p (a :: b :: t) = true := by
  unfold noAdjPair
  rw [h1, h2]
  rfl

theorem noAdjPair_append_left (p : Char → Char → Bool) (u w : List Char)
    (h : noAdjPair p (u ++ w) = true) : noAdjPair p w = true := by
  induction u with
  | nil => exact h
  | cons a u' ih => exact ih (noAdjPair_tail p a (u' ++ w) h)

theorem noAdjPair_append_right (p : Char → Char → Bool) (w v : List Char)
    (h : noAdjPair p (w ++ v) = true) : noAdjPair p w = true := by
  induction w with
  | nil => rfl
  | cons a w' ih =>
    cases w' with
    | nil => rfl
    | cons b w'' =>
      have h1 : p a b = false := noAdjPair_cons p a b (w'' ++ v) h
      exact noAdjPair_mk p a b w'' h1 (ih (noAdjPair_tail p a ((b :: w'') ++ v) h))

theorem noAdjPair_append_singleton (p : Char → Char → Bool) (s : List Char) (d : Char)
    (h : noAdjPair p s = true) (hlast : ∀ c, s.getLast? = some c → p c d = false) :
    noAdjPair p (s ++ [d]) = true := by
  induction s with
  | nil => rfl
  | cons a t ih =>
    cases t with
    | nil =>
      exact noAdjPair_mk p a d [] (hlast a rfl) rfl
    | cons b t' =>
      have h1 : p a b = false := noAdjPair_cons p a b t' h
      have h2 := ih (noAdjPair_tail p a (b :: t') h) (by
        intro c hc
        apply hlast
        rw [List.getLast?_cons_cons]
        exact hc)
      exact noAdjPair_mk p a b (t' ++ [d]) h1 h2

theorem allChars_mem (q : Char → Bool) (s : List Char) :
    allChars q s = true ↔ ∀ c ∈ s, q c = true := by
  unfold allChars
  exact List.all_eq_true

theorem head?_dropWhile (p : Char → Bool) (l : List Char) :
    ∀ c, (l.dropWhile p).head? = some c → p c = false := by
  induction l with
  | nil => intro c hc; cases hc
  | cons a t ih =>
    intro c hc
    rw [List.dropWhile_cons] at hc
    by_cases hp : p a = true
    · rw [if_pos hp] at hc
      exact ih c hc
    · rw [if_neg hp] at hc
      injection hc with hc
      subst hc
      cases hpa : p a with
      | false => rfl
      | true => exact absurd hpa hp

theorem dropWhile_eq_self_of_head (p : Char → Bool) (l : List Char)
    (h : ∀ c, l.head? = some c → p c = false) : l.dropWhile p = l := by
  cases l with
  | nil => rfl
  | cons a t =>
    rw [List.dropWhile_cons, if_neg (by rw [h a rfl]; simp)]

theorem pyStrip_noop (s : List Char)
    (hhead : ∀ c, s.head? = some c → pyIsSpace c = false)
    (hlast : ∀ c, s.getLast? = some c → pyIsSpace c = false) : pyStrip s = s := by
  unfold pyStrip
  rw [dropWhile_eq_self_of_head pyIsSpace s hhead]
  rw [dropWhile_eq_self_of_head pyIsSpace s.reverse (by
    intro c hc
    rw [List.head?_reverse] at hc
    exact hlast c hc)]
  exact List.reverse_reverse s

theorem pyStrip_last (s : List Char) :
    ∀ c, (pyStrip s).getLast? = some c → pyIsSpace c = false := by
  intro c hc
  unfold pyStrip at hc
  rw [List.getLast?_reverse] at hc
  exact head?_dropWhile pyIsSpace _ c hc

theorem getLast?_dropWhile_of_ne (p : Char → Bool) (l : List Char)
    (h : l.dropWhile p ≠ []) : (l.dropWhile p).getLast? = l.getLast? := by
  conv_rhs => rw [← List.takeWhile_append_dropWhile (p := p) (l := l)]
  rw [List.getLast?_append_of_ne_nil _ h]

theorem pyStrip_head (s : List Char) :
    ∀ c, (pyStrip s).head? = some c → pyIsSpace c = false := by
  intro c hc
  unfold pyStrip at hc
  rw [List.head?_reverse] at hc
  have hne : (s.dropWhile pyIsSpace).reverse.dropWhile pyIsSpace ≠ [] := by
    intro hnil
    rw [hnil] at hc
    cases hc
  rw [getLast?_dropWhile_of_ne pyIsSpace _ hne] at hc
  rw [List.getLast?_reverse] at hc
  exact head?_dropWhile pyIsSpace s c hc

theorem pyStrip_mid (s : List Char) : ∃ u v, s = u ++ (pyStrip s ++ v) := by
  refine ⟨s.takeWhile pyIsSpace,
    ((s.dropWhile pyIsSpace).reverse.takeWhile pyIsSpace).reverse, ?_⟩
  unfold pyStrip
  conv_lhs => rw [← List.takeWhile_append_dropWhile (p := pyIsSpace) (l := s)]
  congr 1
  conv_lhs => rw [← List.reverse_reverse (s.dropWhile pyIsSpace)]
  conv_lhs =>
    rw [← List.takeWhile_append_dropWhile (p := pyIsSpace)
      (l := (s.dropWhile pyIsSpace).reverse)]
  rw [List.reverse_append]

theorem collapseWs_head (c : Char) (t : List Char) :
    (collapseWs (c :: t)).head? = some (if pyIsSpace c then ' ' else c) := by
  induction t generalizing c with
  | nil => rfl
  | cons b t' ih =>
    unfold collapseWs
    by_cases hab : (pyIsSpace c && pyIsSpace b) = true
    · rw [if_pos hab]
      rw [ih b]
      simp only [Bool.and_eq_true] at hab
      rw [if_pos hab.2, if_pos hab.1]
    · rw [if_neg hab]
      rfl

theorem collapseWs_allBlank (s : List Char) :
    allChars (fun c => !pyIsSpace c || c == ' ') (collapseWs s) = true := by
  induction s with
  | nil => rfl
  | cons a t ih =>
    cases t with
    | nil =>
      unfold collapseWs
      rw [allChars_mem]
      intro c hc
      simp only [List.mem_singleton] at hc
      subst hc
      by_cases hs : pyIsSpace a = true
      · rw [if_pos hs]; rfl
      · rw [if_neg hs]
        simp [hs]
    | cons b t' =>
      unfold collapseWs
      by_cases hab : (pyIsSpace a && pyIsSpace b) = true
      · rw [if_pos hab]
        exact ih
      · rw [if_neg hab]
        rw [allChars_mem]
        intro c hc
        rcases List.mem_cons.mp hc with rfl | hc
        · by_cases hs : pyIsSpace a = true
          · rw [if_pos hs]; rfl
          · rw [if_neg hs]; simp [hs]
        · exact (allChars_mem _ _).mp ih c hc

theorem beq_space_eq_false (c : Char) (h : pyIsSpace c = false) : (c == ' ') = false := by
  cases hb : (c == ' ') with
  | false => rfl
  | true =>
    have hc : c = ' ' := beq_iff_eq.mp hb
    subst hc
    exact absurd h (by decide)

theorem collapseWs_noAdjSpace (s : List Char) :
    noAdjPair (fun a b => a == ' ' && b == ' ') (collapseWs s) = true := by
  induction s with
  | nil => rfl
  | cons a t ih =>
    cases t with
    | nil => rfl
    | cons b t' =>
      unfold collapseWs
      by_cases hab : (pyIsSpace a && pyIsSpace b) = true
      · rw [if_pos hab]
        exact ih
      · rw [if_neg hab]
        have hd := collapseWs_head b t'
        cases hc : collapseWs (b :: t') with
        | nil =>
          rw [hc] at hd
          cases hd
        | cons d rest =>
          rw [hc] at hd
          injection hd with hd
          apply noAdjPair_mk
          · by_cases hsa : pyIsSpace a = true
            · rw [if_pos hsa]
              have hsb : pyIsSpace b = false := by
                cases hs2 : pyIsSpace b with
                | false => rfl
                | true => exact absurd (by rw [hsa, hs2]; rfl : (pyIsSpace a && pyIsSpace b) = true) hab
              rw [hd, if_neg (by rw [hsb]; simp)]
              rw [beq_space_eq_false b hsb]
              simp
            · rw [if_neg hsa]
              rw [beq_space_eq_false a (by cases h2 : pyIsSpace a with
                | false => rfl
                | true => exact absurd h2 hsa)]
              simp
          · rw [← hc]
            exact ih

theorem collapseWs_noop (s : List Char)
    (hblank : allChars (fun c => !pyIsSpace c || c == ' ') s = true)
    (hadj : noAdjPair (fun a b => a == ' ' && b == ' ') s = true) :
    collapseWs s = s := by
  induction s with
  | nil => rfl
  | cons a t ih =>
    have hqa : (!pyIsSpace a || a == ' ') = true :=
      (allChars_mem _ _).mp hblank a (List.mem_cons_self a t)
    cases t with
    | nil =>
      unfold collapseWs
      by_cases hsa : pyIsSpace a = true
      · rw [if_pos hsa]
        have ha : a = ' ' := by
          rw [hsa] at hqa
          simp at hqa
          exact hqa
        rw [ha]
      · rw [if_neg hsa]
    | cons b t' =>
      unfold collapseWs
      have hbothfalse : (pyIsSpace a && pyIsSpace b) = false := by
        cases hsa : pyIsSpace a with
        | false => rfl
        | true =>
          cases hsb : pyIsSpace b with
          | false => rfl
          | true =>
            have ha : a = ' ' := by
              rw [hsa] at hqa
              simp at hqa
              exact hqa
            have hqb : (!pyIsSpace b || b == ' ') = true :=
              (allChars_mem _ _).mp hblank b (List.mem_cons_of_mem a (List.mem_cons_self b t'))
            have hb : b = ' ' := by
              rw [hsb] at hqb
              simp at hqb
              exact hqb
            have hpair := noAdjPair_cons _ a b t' hadj
            rw [ha, hb] at hpair
            simp at hpair
      · rw [if_neg (by rw [hbothfalse]; simp)]
        have hrest : collapseWs (b :: t') = b :: t' := by
          apply ih
          · rw [allChars_mem] at hblank ⊢
            intro c hc
            exact hblank c (List.mem_cons_of_mem a hc)
          · exact noAdjPair_tail _ a (b :: t') hadj
        rw [hrest]
        by_cases hsa : pyIsSpace a = true
        · rw [if_pos hsa]
          have ha : a = ' ' := by
            rw [hsa] at hqa
            simp at hqa
            exact hqa
          rw [ha]
        · rw [if_neg hsa]

theorem collapseWs_mem (s : List Char) :
    ∀ c ∈ collapseWs s, c ∈ s ∨ c = ' ' := by
  induction s with
  | nil => intro c hc; cases hc
  | cons a t ih =>
    intro c hc
    cases t with
    | nil =>
      unfold collapseWs at hc
      by_cases hsa : pyIsSpace a = true
      · rw [if_pos hsa] at hc
        simp only [List.mem_singleton] at hc
        exact Or.inr hc
      · rw [if_neg hsa] at hc
        simp only [List.mem_singleton] at hc
        exact Or.inl (hc ▸ List.mem_cons_self a [])
    | cons b t' =>
      unfold collapseWs at hc
      by_cases hab : (pyIsSpace a && pyIsSpace b) = true
      · rw [if_pos hab] at hc
        rcases ih c hc with hm | he
        · exact Or.inl (List.mem_cons_of_mem a hm)
        · exact Or.inr he
      · rw [if_neg hab] at hc
        rcases List.mem_cons.mp hc with rfl | hc2
        · by_cases hsa : pyIsSpace a = true
          · rw [if_pos hsa]
            exact Or.inr rfl
          · rw [if_neg hsa]
            exact Or.inl (List.mem_cons_self a (b :: t'))
        · rcases ih c hc2 with hm | he
          · exact Or.inl (List.mem_cons_of_mem a hm)
          · exact Or.inr he

theorem dedupePunct_head (c : Char) (t : List Char) :
    (dedupePunct (c :: t)).head? = some c := by
  induction t generalizing c with
  | nil => rfl
  | cons b t' ih =>
    unfold dedupePunct
    by_cases hcb : (isPunctCls c && c == b) = true
    · rw [if_pos hcb]
      simp only [Bool.and_eq_true] at hcb
      have hcbe : c = b := beq_iff_eq.mp hcb.2
      rw [hcbe]
      exact ih b
    · rw [if_neg hcb]
      rfl

theorem getLast?_cons_ne_nil (a : Char) (l : List Char) (h : l ≠ []) :
    (a :: l).getLast? = l.getLast? := by
  cases l with
  | nil => exact absurd rfl h
  | cons b t => exact List.getLast?_cons_cons

theorem dedupePunct_getLast (s : List Char) :
    (dedupePunct s).getLast? = s.getLast? := by
  induction s with
  | nil => rfl
  | cons a t ih =>
    cases t with
    | nil => rfl
    | cons b t' =>
      unfold dedupePunct
      by_cases hab : (isPunctCls a && a == b) = true
      · rw [if_pos hab, ih]
        rw [List.getLast?_cons_cons]
      · rw [if_neg hab]
        have hne : dedupePunct (b :: t') ≠ [] := by
          intro hnil
          have := dedupePunct_head b t'
          rw [hnil] at this
          cases this
        rw [getLast?_cons_ne_nil a _ hne, ih, List.getLast?_cons_cons]

theorem dedupePunct_sublist (s : List Char) : List.Sublist (dedupePunct s) s := by
  induction s with
  | nil => exact List.Sublist.refl []
  | cons a t ih =>
    cases t with
    | nil => exact List.Sublist.refl [a]
    | cons b t' =>
      unfold dedupePunct
      by_cases hab : (isPunctCls a && a == b) = true
      · rw [if_pos hab]
        exact List.Sublist.cons a ih
      · rw [if_neg hab]
        exact List.Sublist.cons₂ a ih

theorem dedupePunct_noDup (s : List Char) :
    noAdjPair (fun a b => isPunctCls a && a == b) (dedupePunct s) = true := by
  induction s with
  | nil => rfl
  | cons a t ih =>
    cases t with
    | nil => rfl
    | cons b t' =>
      unfold dedupePunct
      by_cases hab : (isPunctCls a && a == b) = true
      · rw [if_pos hab]
        exact ih
      · rw [if_neg hab]
        have hd := dedupePunct_head b t'
        cases hc : dedupePunct (b :: t') with
        | nil =>
          rw [hc] at hd
          cases hd
        | cons d rest =>
          rw [hc] at hd
          injection hd with hd
          subst hd
          apply noAdjPair_mk
          · cases hx : (isPunctCls a && a == d)
            · rfl
            · rw [hx] at hab
              exact absurd rfl hab
          · rw [← hc]
            exact ih

theorem dedupePunct_noop (s : List Char)
    (h : noAdjPair (fun a b => isPunctCls a && a == b) s = true) :
    dedupePunct s = s := by
  induction s with
  | nil => rfl
  | cons a t ih =>
    cases t with
    | nil => rfl
    | cons b t' =>
      unfold dedupePunct
      rw [if_neg (by rw [noAdjPair_cons _ a b t' h]; simp)]
      rw [ih (noAdjPair_tail _ a (b :: t') h)]

theorem dedupePunct_preserves_noAdj (p : Char → Char → Bool) (s : List Char)
    (h : noAdjPair p s = true) : noAdjPair p (dedupePunct s) = true := by
  induction s with
  | nil => rfl
  | cons a t ih =>
    cases t with
    | nil => rfl
    | cons b t' =>
      unfold dedupePunct
      by_cases hab : (isPunctCls a && a == b) = true
      · rw [if_pos hab]
        have hb : a = b := by
          simp only [Bool.and_eq_true] at hab
          exact beq_iff_eq.mp hab.2
        subst hb
        exact ih (noAdjPair_tail p a (a :: t') h)
      · rw [if_neg hab]
        have hd := dedupePunct_head b t'
        cases hc : dedupePunct (b :: t') with
        | nil =>
          rw [hc] at hd
          cases hd
        | cons d rest =>
          rw [hc] at hd
          injection hd with hd
          subst hd
          apply noAdjPair_mk
          · exact noAdjPair_cons p a d t' h
          · rw [← hc]
            exact ih (noAdjPair_tail p a (d :: t') h)

theorem upperFirst_head_nonspace (s : List Char)
    (h : ∀ c, s.head? = some c → pyIsSpace c = false) :
    ∀ c, (upperFirst s).head? = some c → pyIsSpace c = false := by
  intro c hc
  cases s with
  | nil => cases hc
  | cons a t =>
    unfold upperFirst at hc
    simp only at hc
    by_cases ha : pyIsAlpha a = true
    · rw [if_pos ha] at hc
      simp only [List.head?_cons, Option.some_inj] at hc
      subst hc
      rw [pyIsSpace_pyToUpper]
      exact h a rfl
    · rw [if_neg ha] at hc
      simp only [List.head?_cons, Option.some_inj] at hc
      subst hc
      exact h a rfl

theorem upperFirst_head_fix (s : List Char) :
    ∀ c, (upperFirst s).head? = some c → pyIsAlpha c = true → pyToUpper c = c := by
  intro c hc halpha
  cases s with
  | nil => cases hc
  | cons a t =>
    unfold upperFirst at hc
    simp only at hc
    by_cases ha : pyIsAlpha a = true
    · rw [if_pos ha] at hc
      simp only [List.head?_cons, Option.some_inj] at hc
      subst hc
      exact pyToUpper_idem a
    · rw [if_neg ha] at hc
      simp only [List.head?_cons, Option.some_inj] at hc
      subst hc
      exact absurd halpha ha

theorem upperFirst_allChars (q : Char → Bool) (s : List Char)
    (hq : ∀ c, q c = true → q (pyToUpper c) = true)
    (h : allChars q s = true) : allChars q (upperFirst s) = true := by
  cases s with
  | nil => rfl
  | cons a t =>
    unfold upperFirst
    simp only
    by_cases ha : pyIsAlpha a = true
    · rw [if_pos ha]
      rw [allChars_mem] at h ⊢
      intro c hc
      rcases List.mem_cons.mp hc with rfl | hc2
      · exact hq a (h a (List.mem_cons_self a t))
      · exact h c (List.mem_cons_of_mem a hc2)
    · rw [if_neg ha]
      exact h

theorem upperFirst_noAdj (p : Char → Char → Bool) (s : List Char)
    (hp : ∀ c b, p (pyToUpper c) b = true → p c b = true)
    (h : noAdjPair p s = true) : noAdjPair p (upperFirst s) = true := by
  cases s with
  | nil => rfl
  | cons a t =>
    unfold upperFirst
    simp only
    by_cases ha : pyIsAlpha a = true
    · rw [if_pos ha]
      cases t with
      | nil => rfl
      | cons b t' =>
        apply noAdjPair_mk
        · cases hx : p (pyToUpper a) b
          · rfl
          · have := hp a b hx
            rw [noAdjPair_cons p a b t' h] at this
            cases this
        · exact noAdjPair_tail p a (b :: t') h
    · rw [if_neg ha]
      exact h

theorem upperFirst_mem (s : List Char) :
    ∀ c ∈ upperFirst s, c ∈ s ∨ ∃ a ∈ s, c = pyToUpper a := by
  intro c hc
  cases s with
  | nil => cases hc
  | cons a t =>
    unfold upperFirst at hc
    simp only at hc
    by_cases ha : pyIsAlpha a = true
    · rw [if_pos ha] at hc
      rcases List.mem_cons.mp hc with rfl | hc2
      · exact Or.inr ⟨a, List.mem_cons_self a t, rfl⟩
      · exact Or.inl (List.mem_cons_of_mem a hc2)
    · rw [if_neg ha] at hc
      exact Or.inl hc

theorem ensureTerminal_last (s : List Char) :
    ∀ c, (ensureTerminal s).getLast? = some c → terminalPunct c = true := by
  intro c hc
  unfold ensureTerminal at hc
  cases hl : s.getLast? with
  | none =>
    rw [hl] at hc
    rw [hc] at hl
    cases hl
  | some d =>
    rw [hl] at hc
    simp only at hc
    by_cases hd : terminalPunct d = true
    · rw [if_pos hd] at hc
      rw [hl] at hc
      injection hc with hc
      subst hc
      exact hd
    · rw [if_neg hd] at hc
      rw [List.getLast?_append] at hc
      injection hc with hc
      subst hc
      rfl

theorem ensureTerminal_head (s : List Char) :
    (ensureTerminal s).head? = s.head? := by
  unfold ensureTerminal
  cases hl : s.getLast? with
  | none => rfl
  | some d =>
    simp only
    by_cases hd : terminalPunct d = true
    · rw [if_pos hd]
    · rw [if_neg hd]
      cases s with
      | nil => cases hl
      | cons a t => rfl

theorem ensureTerminal_allChars (q : Char → Bool) (s : List Char)
    (hq : q '.' = true)
    (h : allChars q s = true) : allChars q (ensureTerminal s) = true := by
  unfold ensureTerminal
  cases hl : s.getLast? with
  | none => exact h
  | some d =>
    simp only
    by_cases hd : terminalPunct d = true
    · rw [if_pos hd]
      exact h
    · rw [if_neg hd]
      rw [allChars_mem] at h ⊢
      intro c hc
      rcases List.mem_append.mp hc with hc1 | hc2
      · exact h c hc1
      · simp only [List.mem_singleton] at hc2
        subst hc2
        exact hq

theorem ensureTerminal_noAdj (p : Char → Char → Bool) (s : List Char)
    (h : noAdjPair p s = true)
    (hdot : ∀ c, s.getLast? = some c → terminalPunct c = false → p c '.' = false) :
    noAdjPair p (ensureTerminal s) = true := by
  unfold ensureTerminal
  cases hl : s.getLast? with
  | none => exact h
  | some d =>
    simp only
    by_cases hd : terminalPunct d = true
    · rw [if_pos hd]
      exact h
    · rw [if_neg hd]
      apply noAdjPair_append_singleton p s '.' h
      intro c hc
      rw [hl] at hc
      injection hc with hc
      subst hc
      exact hdot d hl (by rw [Bool.eq_false_iff]; exact hd)

theorem ensureTerminal_noop (s : List Char)
    (h : ∀ c, s.getLast? = some c → terminalPunct c = true) :
    ensureTerminal s = s := by
  unfold ensureTerminal
  cases hl : s.getLast? with
  | none => rfl
  | some d =>
    simp only
    rw [if_pos (h d hl)]

theorem removeBackticks_noop (s : List Char)
    (h : allChars (fun c => c != backtick) s = true) : removeBackticks s = s := by
  unfold removeBackticks
  rw [List.filter_eq_self]
  exact (allChars_mem _ _).mp h

theorem mem_dropWhile (p : Char → Bool) (l : List Char) :
    ∀ c ∈ l.dropWhile p, c ∈ l := by
  induction l with
  | nil =>
    intro c hc
    exact hc
  | cons a t ih =>
    intro c hc
    rw [List.dropWhile_cons] at hc
    by_cases hp : p a = true
    · rw [if_pos hp] at hc
      exact List.mem_cons_of_mem a (ih c hc)
    · rw [if_neg hp] at hc
      exact hc

theorem schemeRest_mem (l r : List Char) (h : schemeRest l = some r) :
    ∀ c ∈ r, c ∈ l := by
  unfold schemeRest at h
  split at h
  · injection h with h
    subst h
    intro c hc
    simp only [List.mem_cons]
    exact Or.inr (Or.inr (Or.inr (Or.inr hc)))
  · injection h with h
    subst h
    intro c hc
    simp only [List.mem_cons]
    exact Or.inr (Or.inr (Or.inr hc))
  · cases h

theorem urlMatch_mem (s rest : List Char) (h : urlMatch s = some rest) :
    ∀ c ∈ rest, c ∈ s := by
  unfold urlMatch at h
  split at h
  · rename_i rest₀
    cases hsch : schemeRest rest₀ with
    | none =>
      rw [hsch] at h
      cases h
    | some r₀ =>
      rw [hsch] at h
      cases r₀ with
      | nil => cases h
      | cons c₀ r =>
        simp only at h
        by_cases hsp : pyIsSpace c₀ = true
        · rw [if_pos hsp] at h
          cases h
        · rw [if_neg hsp] at h
          injection h with h
          subst h
          intro c hc
          have hr : c ∈ r := mem_dropWhile _ r c hc
          have hr0 : c ∈ c₀ :: r := List.mem_cons_of_mem c₀ hr
          have hin : c ∈ rest₀ := schemeRest_mem rest₀ (c₀ :: r) hsch c hr0
          simp only [List.mem_cons]
          exact Or.inr (Or.inr (Or.inr (Or.inr hin)))
  · cases h

theorem removeUrlsF_mem (fuel : Nat) (s : List Char) :
    ∀ c ∈ removeUrlsF fuel s, c ∈ s := by
  induction fuel generalizing s with
  | zero =>
    intro c hc
    exact hc
  | succ fuel ih =>
    cases s with
    | nil =>
      intro c hc
      exact hc
    | cons a cs =>
      intro c hc
      unfold removeUrlsF at hc
      cases hm : urlMatch (a :: cs) with
      | some rest =>
        rw [hm] at hc
        exact urlMatch_mem (a :: cs) rest hm c (ih rest c hc)
      | none =>
        rw [hm] at hc
        rcases List.mem_cons.mp hc with rfl | hc2
        · exact List.mem_cons_self _ _
        · exact List.mem_cons_of_mem a (ih cs c hc2)

theorem removeUrls_mem (s : List Char) : ∀ c ∈ removeUrls s, c ∈ s :=
  removeUrlsF_mem s.length s

theorem removeUrlsF_noop (fuel : Nat) (s : List Char)
    (h : urlFree s = true) : removeUrlsF fuel s = s := by
  induction fuel generalizing s with
  | zero => rfl
  | succ fuel ih =>
    cases s with
    | nil => rfl
    | cons a cs =>
      unfold removeUrlsF
      unfold urlFree at h
      simp only [Bool.and_eq_true, Option.isNone_iff_eq_none] at h
      rw [h.1]
      rw [ih cs h.2]

theorem removeUrls_noop (s : List Char) (h : urlFree s = true) :
    removeUrls s = s := removeUrlsF_noop s.length s h

theorem wordChar_star : wordChar '*' = false := by decide

theorem pyIsSpace_star : pyIsSpace '*' = false := by decide

theorem pyIsAlpha_star : pyIsAlpha '*' = false := by decide

theorem isPunctCls_star : isPunctCls '*' = false := by decide

theorem star_ne_backtick : ('*' != backtick) = true := by decide

theorem badWords_min_len : ∀ w ∈ badWords, 3 ≤ w.length := by decide

theorem maskCond_length (seg : List Char) (h : maskCond seg = true) :
    3 ≤ seg.length := by
  unfold maskCond at h
  simp only [Bool.and_eq_true] at h
  have hm : (seg.map pyToLower) ∈ badWords := by
    have hc := h.2
    exact List.elem_iff.mp hc
  have hlen := badWords_min_len _ hm
  rw [List.length_map] at hlen
  exact hlen

theorem maskCond_word (seg : List Char) (h : maskCond seg = true) :
    seg.all wordChar = true := by
  unfold maskCond at h
  simp only [Bool.and_eq_true] at h
  exact h.1

theorem rel_refl (s : List Char) :
    List.Forall₂ (fun a b => b = a ∨ (b = '*' ∧ wordChar a = true)) s s := by
  induction s with
  | nil => exact List.Forall₂.nil
  | cons a t ih => exact List.Forall₂.cons (Or.inl rfl) ih

theorem forall₂_append_rel (R : Char → Char → Prop) {u u' v v' : List Char}
    (h1 : List.Forall₂ R u u') (h2 : List.Forall₂ R v v') :
    List.Forall₂ R (u ++ v) (u' ++ v') := by
  induction h1 with
  | nil => exact h2
  | cons ha _ ih => exact List.Forall₂.cons ha ih

theorem maskInterior_rel (s : List Char) (h : s.all wordChar = true) :
    List.Forall₂ (fun a b => b = a ∨ (b = '*' ∧ wordChar a = true)) s (maskInterior s) := by
  induction s with
  | nil => exact List.Forall₂.nil
  | cons a t ih =>
    cases t with
    | nil => exact List.Forall₂.cons (Or.inl rfl) List.Forall₂.nil
    | cons b t' =>
      rw [List.all_cons, Bool.and_eq_true] at h
      exact List.Forall₂.cons (Or.inr ⟨rfl, h.1⟩) (ih h.2)

theorem replicate_star_rel (s : List Char) (h : s.all wordChar = true) :
    List.Forall₂ (fun a b => b = a ∨ (b = '*' ∧ wordChar a = true)) s
      (List.replicate s.length '*') := by
  induction s with
  | nil => exact List.Forall₂.nil
  | cons a t ih =>
    rw [List.all_cons, Bool.and_eq_true] at h
    exact List.Forall₂.cons (Or.inr ⟨rfl, h.1⟩) (ih h.2)

theorem maskStep_rel (seg : List Char) :
    List.Forall₂ (fun a b => b = a ∨ (b = '*' ∧ wordChar a = true)) seg (maskStep seg) := by
  unfold maskStep
  by_cases hm : maskCond seg = true
  · rw [if_pos hm]
    have hw := maskCond_word seg hm
    have hlen := maskCond_length seg hm
    unfold maskSeg
    by_cases h2 : seg.length ≤ 2
    · rw [if_pos h2]
      exact replicate_star_rel seg hw
    · rw [if_neg h2]
      cases seg with
      | nil => cases hlen
      | cons a rest =>
        simp only
        rw [List.all_cons, Bool.and_eq_true] at hw
        exact List.Forall₂.cons (Or.inl rfl) (maskInterior_rel rest hw.2)
  · rw [if_neg hm]
    exact rel_refl seg

theorem segStep_flatten (c : Char) (L : List (List Char)) :
    (segStep c L).flatten = c :: L.flatten := by
  unfold segStep
  by_cases hc : wordChar c = true
  · rw [if_pos hc]
    cases L with
    | nil => rfl
    | cons seg rest =>
      cases seg with
      | nil => rfl
      | cons d ds =>
        simp only
        by_cases hd : wordChar d = true
        · rw [if_pos hd]
          simp [List.flatten_cons]
        · rw [if_neg hd]
          simp [List.flatten_cons]
  · rw [if_neg hc]
    simp [List.flatten_cons]

theorem segments_flatten (s : List Char) : (segments s).flatten = s := by
  induction s with
  | nil => rfl
  | cons c t ih =>
    show (segStep c (segments t)).flatten = c :: t
    rw [segStep_flatten, ih]

theorem flatten_maskStep_rel (L : List (List Char)) :
    List.Forall₂ (fun a b => b = a ∨ (b = '*' ∧ wordChar a = true)) L.flatten
      ((L.map maskStep).flatten) := by
  induction L with
  | nil => exact List.Forall₂.nil
  | cons seg rest ih =>
    simp only [List.map_cons, List.flatten_cons]
    exact forall₂_append_rel _ (maskStep_rel seg) ih

theorem mask_words_rel (z : List Char) :
    List.Forall₂ (fun a b => b = a ∨ (b = '*' ∧ wordChar a = true)) z (mask_words z) := by
  have h := flatten_maskStep_rel (segments z)
  rw [segments_flatten] at h
  exact h

theorem rel_mem {z y : List Char}
    (hF : List.Forall₂ (fun a b => b = a ∨ (b = '*' ∧ wordChar a = true)) z y) :
    ∀ c ∈ y, c ∈ z ∨ c = '*' := by
  induction hF with
  | nil =>
    intro c hc
    cases hc
  | cons ha htail ih =>
    intro c hc
    rcases List.mem_cons.mp hc with hceq | hc2
    · subst hceq
      rcases ha with h1 | ⟨h2, _⟩
      · rw [h1]
        exact Or.inl (List.mem_cons_self _ _)
      · exact Or.inr h2
    · rcases ih c hc2 with hm | hs
      · exact Or.inl (List.mem_cons_of_mem _ hm)
      · exact Or.inr hs

theorem rel_noAdj (p : Char → Char → Bool) {z y : List Char}
    (hL : ∀ b, p '*' b = false) (hR : ∀ a, p a '*' = false)
    (hF : List.Forall₂ (fun a b => b = a ∨ (b = '*' ∧ wordChar a = true)) z y)
    (h : noAdjPair p z = true) : noAdjPair p y = true := by
  induction hF with
  | nil => rfl
  | cons ha htail ih =>
    cases htail with
    | nil => rfl
    | cons ha2 htail2 =>
      apply noAdjPair_mk
      · rcases ha with h1 | ⟨h1, _⟩
        · rcases ha2 with h2 | ⟨h2, _⟩
          · rw [h1, h2]
            exact noAdjPair_cons p _ _ _ h
          · rw [h2]
            exact hR _
        · rw [h1]
          exact hL _
      · exact ih (noAdjPair_tail p _ _ h)

theorem rel_head {z y : List Char}
    (hF : List.Forall₂ (fun a b => b = a ∨ (b = '*' ∧ wordChar a = true)) z y) :
    ∀ c, y.head? = some c →
      ∃ a, z.head? = some a ∧ (c = a ∨ (c = '*' ∧ wordChar a = true)) := by
  cases hF with
  | nil =>
    intro c hc
    cases hc
  | cons ha htail =>
    intro c hc
    simp only [List.head?_cons, Option.some_inj] at hc
    subst hc
    exact ⟨_, rfl, ha⟩

theorem rel_last {z y : List Char}
    (hF : List.Forall₂ (fun a b => b = a ∨ (b = '*' ∧ wordChar a = true)) z y) :
    ∀ c, y.getLast? = some c →
      ∃ a, z.getLast? = some a ∧ (c = a ∨ (c = '*' ∧ wordChar a = true)) := by
  induction hF with
  | nil =>
    intro c hc
    cases hc
  | cons ha htail ih =>
    intro c hc
    cases htail with
    | nil =>
      simp only [List.getLast?_singleton, Option.some_inj] at hc
      subst hc
      exact ⟨_, rfl, ha⟩
    | cons ha2 htail2 =>
      rw [List.getLast?_cons_cons] at hc
      obtain ⟨a0, hz, hrel⟩ := ih c hc
      refine ⟨a0, ?_, hrel⟩
      rw [List.getLast?_cons_cons]
      exact hz

theorem segsChain_cons (s₁ s₂ : List Char) (rest : List (List Char))
    (h : segsChain (s₁ :: s₂ :: rest) = true) :
    (s₁.all wordChar && s₂.all wordChar) = false ∧ segsChain (s₂ :: rest) = true := by
  unfold segsChain at h
  simp only [Bool.and_eq_true, Bool.not_eq_true'] at h
  exact h

theorem segsChain_mk (s₁ s₂ : List Char) (rest : List (List Char))
    (h1 : (s₁.all wordChar && s₂.all wordChar) = false)
    (h2 : segsChain (s₂ :: rest) = true) :
    segsChain (s₁ :: s₂ :: rest) = true := by
  unfold segsChain
  rw [h1, h2]
  rfl

theorem segsChain_tail (x : List Char) (L : List (List Char))
    (h : segsChain (x :: L) = true) : segsChain L = true := by
  cases L with
  | nil => rfl
  | cons y L' => exact (segsChain_cons x y L' h).2

theorem segStep_head (c : Char) (L : List (List Char)) :
    ∃ seg rest, segStep c L = seg :: rest ∧ seg.head? = some c := by
  unfold segStep
  by_cases hc : wordChar c = true
  · rw [if_pos hc]
    cases L with
    | nil => exact ⟨[c], [], rfl, rfl⟩
    | cons seg rest =>
      cases seg with
      | nil => exact ⟨[c], [] :: rest, rfl, rfl⟩
      | cons d ds =>
        simp only
        by_cases hd : wordChar d = true
        · rw [if_pos hd]
          exact ⟨c :: d :: ds, rest, rfl, rfl⟩
        · rw [if_neg hd]
          exact ⟨[c], (d :: ds) :: rest, rfl, rfl⟩
  · rw [if_neg hc]
    exact ⟨[c], L, rfl, rfl⟩

theorem segments_cons_head (c : Char) (t : List Char) :
    ∃ seg rest, segments (c :: t) = seg :: rest ∧ seg.head? = some c :=
  segStep_head c (segments t)

theorem segments_singleton (a : Char) : segments [a] = [[a]] := by
  show segStep a [] = [[a]]
  unfold segStep
  by_cases ha : wordChar a = true
  · rw [if_pos ha]
  · rw [if_neg ha]

theorem segments_shape (s : List Char) :
    ∀ t ∈ segments s,
      t ≠ [] ∧ (t.all wordChar = true ∨ ∃ c, t = [c] ∧ wordChar c = false) := by
  induction s with
  | nil =>
    intro t ht
    cases ht
  | cons a s' ih =>
    intro t ht
    have hstep : segments (a :: s') = segStep a (segments s') := rfl
    rw [hstep] at ht
    unfold segStep at ht
    by_cases ha : wordChar a = true
    · rw [if_pos ha] at ht
      cases hL : segments s' with
      | nil =>
        rw [hL] at ht
        simp only at ht
        rw [List.mem_singleton] at ht
        subst ht
        exact ⟨by simp, Or.inl (by rw [List.all_cons]; simp [ha])⟩
      | cons seg rest =>
        rw [hL] at ht
        cases seg with
        | nil =>
          have hmem : ([] : List Char) ∈ segments s' := by
            rw [hL]
            exact List.mem_cons_self _ _
          exact absurd rfl (ih [] hmem).1
        | cons d ds =>
          simp only at ht
          by_cases hd : wordChar d = true
          · rw [if_pos hd] at ht
            rcases List.mem_cons.mp ht with rfl | ht2
            · have hmem : (d :: ds) ∈ segments s' := by
                rw [hL]
                exact List.mem_cons_self _ _
              rcases (ih _ hmem).2 with hall | ⟨c, hceq, hcw⟩
              · refine ⟨by simp, Or.inl ?_⟩
                rw [List.all_cons]
                simp [ha, hall]
              · injection hceq with h1 h2
                rw [h1, hcw] at hd
                cases hd
            · have hmem : t ∈ segments s' := by
                rw [hL]
                exact List.mem_cons_of_mem _ ht2
              exact ih t hmem
          · rw [if_neg hd] at ht
            rcases List.mem_cons.mp ht with rfl | ht2
            · exact ⟨by simp, Or.inl (by rw [List.all_cons]; simp [ha])⟩
            · have hmem : t ∈ segments s' := by
                rw [hL]
                exact ht2
              exact ih t hmem
    · rw [if_neg ha] at ht
      rcases List.mem_cons.mp ht with rfl | ht2
      · exact ⟨by simp, Or.inr ⟨a, rfl, Bool.eq_false_iff.mpr ha⟩⟩
      · exact ih t ht2

theorem segments_chain (s : List Char) : segsChain (segments s) = true := by
  induction s with
  | nil => rfl
  | cons a s' ih =>
    have hshape := segments_shape s'
    show segsChain (segStep a (segments s')) = true
    unfold segStep
    by_cases ha : wordChar a = true
    · rw [if_pos ha]
      cases hL : segments s' with
      | nil => rfl
      | cons seg rest =>
        cases seg with
        | nil =>
          exfalso
          have hmem : ([] : List Char) ∈ segments s' := by
            rw [hL]
            exact List.mem_cons_self _ _
          exact (hshape [] hmem).1 rfl
        | cons d ds =>
          simp only
          have hmem : (d :: ds) ∈ segments s' := by
            rw [hL]
            exact List.mem_cons_self _ _
          by_cases hd : wordChar d = true
          · rw [if_pos hd]
            rw [hL] at ih
            have hdall : (d :: ds).all wordChar = true := by
              rcases (hshape _ hmem).2 with hall | ⟨c, hceq, hcw⟩
              · exact hall
              · injection hceq with h1 h2
                rw [h1, hcw] at hd
                cases hd
            cases rest with
            | nil => rfl
            | cons s₂ rest' =>
              obtain ⟨hpair, htail⟩ := segsChain_cons _ _ _ ih
              rw [hdall] at hpair
              simp only [Bool.true_and] at hpair
              apply segsChain_mk
              · rw [hpair, Bool.and_false]
              · exact htail
          · rw [if_neg hd]
            have hdall : (d :: ds).all wordChar = false := by
              rcases (hshape _ hmem).2 with hall | ⟨c, hceq, hcw⟩
              · rw [List.all_cons, Bool.and_eq_true] at hall
                rw [hall.1] at hd
                cases hd rfl
              · rw [hceq, List.all_cons, hcw, List.all_nil, Bool.false_and]
            apply segsChain_mk
            · rw [hdall, Bool.and_false]
            · rw [← hL]
              exact ih
    · rw [if_neg ha]
      cases hL : segments s' with
      | nil => rfl
      | cons seg rest =>
        apply segsChain_mk
        · have ha' : wordChar a = false := Bool.eq_false_iff.mpr ha
          rw [List.all_cons, ha', List.all_nil, Bool.false_and, Bool.false_and]
        · rw [← hL]
          exact ih

theorem segStep_append (a : Char) (seg : List Char) (rest M : List (List Char))
    (h : seg ≠ []) :
    segStep a ((seg :: rest) ++ M) = segStep a (seg :: rest) ++ M := by
  cases seg with
  | nil => exact absurd rfl h
  | cons d ds =>
    by_cases ha : wordChar a = true
    · by_cases hd : wordChar d = true
      · simp [segStep, ha, hd]
      · simp [segStep, ha, hd]
    · simp [segStep, ha]

theorem segStep_no_merge (a : Char) (L : List (List Char))
    (h : ∀ seg rest d, L = seg :: rest → seg.head? = some d →
         wordChar a = false ∨ wordChar d = false) :
    segStep a L = [a] :: L := by
  unfold segStep
  by_cases ha : wordChar a = true
  · rw [if_pos ha]
    cases L with
    | nil => rfl
    | cons seg rest =>
      cases seg with
      | nil => rfl
      | cons d ds =>
        simp only
        rcases h (d :: ds) rest d rfl rfl with hw | hw
        · exact absurd ha (by rw [hw]; decide)
        · rw [if_neg (by rw [hw]; decide)]
  · rw [if_neg ha]

theorem segments_append (u v : List Char) :
    (∀ cu cv, u.getLast? = some cu → v.head? = some cv →
      wordChar cu = false ∨ wordChar cv = false) →
    segments (u ++ v) = segments u ++ segments v := by
  induction u with
  | nil =>
    intro _
    rfl
  | cons a u' ih =>
    intro hcond
    cases u' with
    | nil =>
      show segStep a (segments v) = segments [a] ++ segments v
      rw [segments_singleton]
      show segStep a (segments v) = [a] :: segments v
      apply segStep_no_merge
      intro seg rest d hL hd
      cases v with
      | nil => cases hL
      | cons cv v' =>
        obtain ⟨seg₀, rest₀, hseg₀, hhead₀⟩ := segments_cons_head cv v'
        rw [hseg₀] at hL
        injection hL with h1 h2
        subst h1
        rw [hhead₀] at hd
        injection hd with hd
        subst hd
        exact hcond a cv rfl rfl
    | cons b u'' =>
      show segStep a (segments ((b :: u'') ++ v)) =
        segStep a (segments (b :: u'')) ++ segments v
      rw [ih (by
        intro cu cv hcu hcv
        apply hcond cu cv ?_ hcv
        rw [List.getLast?_cons_cons]
        exact hcu)]
      obtain ⟨seg, rest, hseg, hhead⟩ := segments_cons_head b u''
      rw [hseg]
      apply segStep_append
      intro hnil
      rw [hnil] at hhead
      cases hhead

theorem wordy_segments (s : List Char) :
    s ≠ [] → s.all wordChar = true → segments s = [s] := by
  induction s with
  | nil =>
    intro hne _
    exact absurd rfl hne
  | cons a t ih =>
    intro _ hall
    rw [List.all_cons, Bool.and_eq_true] at hall
    cases t with
    | nil => exact segments_singleton a
    | cons b t' =>
      have hseg := ih (by simp) hall.2
      show segStep a (segments (b :: t')) = [a :: b :: t']
      rw [hseg]
      unfold segStep
      rw [if_pos hall.1]
      simp only
      have hb : wordChar b = true := by
        have h2 := hall.2
        rw [List.all_cons, Bool.and_eq_true] at h2
        exact h2.1
      rw [if_pos hb]

theorem replicate_star_segments (n : Nat) :
    segments (List.replicate n '*') = List.replicate n ['*'] := by
  induction n with
  | zero => rfl
  | succ n ih =>
    rw [List.replicate_succ]
    show segStep '*' (segments (List.replicate n '*')) = _
    rw [ih]
    unfold segStep
    rw [if_neg (by rw [wordChar_star]; decide)]
    rw [List.replicate_succ]

theorem replicate_star_getLast (n : Nat) :
    (List.replicate (n + 1) '*').getLast? = some '*' := by
  induction n with
  | zero => rfl
  | succ n ih =>
    rw [List.replicate_succ]
    rw [getLast?_cons_ne_nil _ _ (by simp)]
    exact ih

theorem replicate_star_head (n : Nat) :
    (List.replicate (n + 1) '*').head? = some '*' := by
  rw [List.replicate_succ]
  rfl

theorem getLast?_append_singleton (l : List Char) (k : Char) :
    (l ++ [k]).getLast? = some k := by
  induction l with
  | nil => rfl
  | cons a t ih =>
    rw [List.cons_append, getLast?_cons_ne_nil a (t ++ [k]) (by simp), ih]

theorem head?_append_left (l₁ l₂ : List Char) (c : Char) (h : l₁.head? = some c) :
    (l₁ ++ l₂).head? = some c := by
  cases l₁ with
  | nil => cases h
  | cons a t => exact h

theorem maskInterior_shape (s : List Char) (h : s ≠ []) :
    ∃ k, maskInterior s = List.replicate (s.length - 1) '*' ++ [k] ∧
      s.getLast? = some k := by
  induction s with
  | nil => exact absurd rfl h
  | cons a t ih =>
    cases t with
    | nil => exact ⟨a, rfl, rfl⟩
    | cons b t' =>
      obtain ⟨k, hk, hlast⟩ := ih (by simp)
      refine ⟨k, ?_, ?_⟩
      · show '*' :: maskInterior (b :: t') = _
        rw [hk]
        rfl
      · rw [List.getLast?_cons_cons]
        exact hlast

theorem maskStep_head (seg : List Char) : (maskStep seg).head? = seg.head? := by
  unfold maskStep
  by_cases hm : maskCond seg = true
  · rw [if_pos hm]
    have hlen := maskCond_length seg hm
    unfold maskSeg
    rw [if_neg (by omega)]
    cases seg with
    | nil => rfl
    | cons a rest => rfl
  · rw [if_neg hm]

theorem maskStep_getLast (seg : List Char) :
    (maskStep seg).getLast? = seg.getLast? := by
  unfold maskStep
  by_cases hm : maskCond seg = true
  · rw [if_pos hm]
    have hlen := maskCond_length seg hm
    unfold maskSeg
    rw [if_neg (by omega)]
    cases seg with
    | nil => rfl
    | cons a rest =>
      simp only
      have hrest : rest ≠ [] := by
        intro hr
        rw [hr] at hlen
        simp at hlen
      obtain ⟨k, hk, hlast⟩ := maskInterior_shape rest hrest
      rw [hk, ← List.cons_append, getLast?_append_singleton]
      rw [getLast?_cons_ne_nil a rest hrest, hlast]
  · rw [if_neg hm]

theorem maskStep_ne_nil (seg : List Char) (h : seg ≠ []) : maskStep seg ≠ [] := by
  intro hnil
  cases hs : seg with
  | nil => exact h hs
  | cons a t =>
    have := maskStep_head seg
    rw [hnil, hs] at this
    cases this

theorem maskCond_short (t : List Char) (h : t.length < 3) : maskCond t = false := by
  cases hm : maskCond t
  · rfl
  · exact absurd (maskCond_length t hm) (by omega)

theorem maskStep_refine_unmasked (seg : List Char)
    (hok : seg ≠ [] ∧ (seg.all wordChar = true ∨ ∃ c, seg = [c] ∧ wordChar c = false)) :
    ∀ t ∈ segments (maskStep seg), maskCond t = false := by
  by_cases hm : maskCond seg = true
  · have hw := maskCond_word seg hm
    have hlen := maskCond_length seg hm
    intro t ht
    unfold maskStep at ht
    rw [if_pos hm] at ht
    unfold maskSeg at ht
    rw [if_neg (by omega)] at ht
    cases seg with
    | nil => simp at hlen
    | cons a rest =>
      simp only at ht
      have hrest : rest ≠ [] := by
        intro hr
        rw [hr] at hlen
        simp at hlen
      obtain ⟨k, hk, _⟩ := maskInterior_shape rest hrest
      rw [hk] at ht
      have hm1 : 1 ≤ rest.length - 1 := by
        have h3 : 3 ≤ rest.length + 1 := by simpa using hlen
        omega
      obtain ⟨m, hmeq⟩ : ∃ m, rest.length - 1 = m + 1 := ⟨rest.length - 2, by omega⟩
      rw [hmeq] at ht
      have hsplit1 : segments ([a] ++ (List.replicate (m + 1) '*' ++ [k]))
          = segments [a] ++ segments (List.replicate (m + 1) '*' ++ [k]) := by
        apply segments_append
        intro cu cv hcu hcv
        right
        rw [head?_append_left _ _ '*' (replicate_star_head m)] at hcv
        injection hcv with hcv
        subst hcv
        exact wordChar_star
      have hsplit2 : segments (List.replicate (m + 1) '*' ++ [k])
          = segments (List.replicate (m + 1) '*') ++ segments [k] := by
        apply segments_append
        intro cu cv hcu hcv
        left
        rw [replicate_star_getLast m] at hcu
        injection hcu with hcu
        subst hcu
        exact wordChar_star
      rw [show a :: (List.replicate (m + 1) '*' ++ [k])
            = [a] ++ (List.replicate (m + 1) '*' ++ [k]) from rfl] at ht
      rw [hsplit1, hsplit2, segments_singleton, replicate_star_segments,
        segments_singleton] at ht
      rcases List.mem_append.mp ht with h1 | h2
      · rw [List.mem_singleton] at h1
        subst h1
        exact maskCond_short _ (by simp)
      · rcases List.mem_append.mp h2 with h3 | h4
        · have := List.eq_of_mem_replicate h3
          subst this
          exact maskCond_short _ (by simp)
        · rw [List.mem_singleton] at h4
          subst h4
          exact maskCond_short _ (by simp)
  · intro t ht
    unfold maskStep at ht
    rw [if_neg hm] at ht
    rcases hok.2 with hall | ⟨c, hceq, hcw⟩
    · rw [wordy_segments seg hok.1 hall] at ht
      rw [List.mem_singleton] at ht
      subst ht
      exact Bool.eq_false_iff.mpr hm
    · subst hceq
      rw [segments_singleton] at ht
      rw [List.mem_singleton] at ht
      subst ht
      unfold maskCond
      rw [List.all_cons, hcw, List.all_nil, Bool.false_and, Bool.false_and]

theorem segments_flatten_maskStep (L : List (List Char)) :
    (∀ t ∈ L, t ≠ [] ∧ (t.all wordChar = true ∨ ∃ c, t = [c] ∧ wordChar c = false)) →
    segsChain L = true →
    segments ((L.map maskStep).flatten) =
      (L.map (fun seg => segments (maskStep seg))).flatten := by
  induction L with
  | nil =>
    intro _ _
    rfl
  | cons seg rest ih =>
    intro hshape hchain
    simp only [List.map_cons, List.flatten_cons]
    cases rest with
    | nil => simp
    | cons s₂ rest' =>
      have hrec := ih (fun t ht => hshape t (List.mem_cons_of_mem _ ht))
        (segsChain_tail _ _ hchain)
      simp only [List.map_cons, List.flatten_cons] at hrec
      have hs₂ := hshape s₂ (List.mem_cons_of_mem _ (List.mem_cons_self _ _))
      have hseg := hshape seg (List.mem_cons_self _ _)
      obtain ⟨b, s₂', hs₂eq⟩ : ∃ b s₂', s₂ = b :: s₂' := by
        cases hx : s₂ with
        | nil => exact absurd hx hs₂.1
        | cons b s₂' => exact ⟨b, s₂', rfl⟩
      have hpair := (segsChain_cons _ _ _ hchain).1
      have hsplit : segments (maskStep seg ++ (maskStep s₂ ++ (rest'.map maskStep).flatten))
          = segments (maskStep seg) ++ segments (maskStep s₂ ++ (rest'.map maskStep).flatten) := by
        apply segments_append
        intro cu cv hcu hcv
        rw [maskStep_getLast] at hcu
        have hcv' : cv = b := by
          have hh : (maskStep s₂ ++ (rest'.map maskStep).flatten).head? = some b := by
            apply head?_append_left
            rw [maskStep_head, hs₂eq]
            rfl
          rw [hh] at hcv
          injection hcv with hcv
          exact hcv.symm
        cases hx : seg.all wordChar with
        | false =>
          left
          rcases hseg.2 with hall | ⟨c, hceq, hcw⟩
          · rw [hall] at hx
            cases hx
          · rw [hceq] at hcu
            injection hcu with hcu
            subst hcu
            exact hcw
        | true =>
          right
          rw [hx, Bool.true_and] at hpair
          rcases hs₂.2 with hall | ⟨c, hceq, hcw⟩
          · rw [hall] at hpair
            cases hpair
          · subst hcv'
            rw [hs₂eq] at hceq
            injection hceq with h1 h2
            rw [h1]
            exact hcw
      simp only [List.map_cons, List.flatten_cons]
      rw [hsplit, hrec]

theorem maskStep_noop (t : List Char) (h : maskCond t = false) : maskStep t = t := by
  simp [maskStep, h]

theorem mask_segments_unmasked (z : List Char) :
    ∀ t ∈ segments (mask_words z), maskCond t = false := by
  intro t ht
  have hshape := segments_shape z
  have hchain := segments_chain z
  have hrefine := segments_flatten_maskStep (segments z) hshape hchain
  rw [show mask_words z = ((segments z).map maskStep).flatten from rfl] at ht
  rw [hrefine] at ht
  rw [List.mem_flatten] at ht
  obtain ⟨l, hl, htl⟩ := ht
  rw [List.mem_map] at hl
  obtain ⟨seg, hseg, rfl⟩ := hl
  exact maskStep_refine_unmasked seg (hshape seg hseg) t htl

theorem mask_words_idem (z : List Char) :
    mask_words (mask_words z) = mask_words z := by
  have hall := mask_segments_unmasked z
  show ((segments (mask_words z)).map maskStep).flatten = mask_words z
  have h1 : ∀ (L : List (List Char)), (∀ t ∈ L, maskCond t = false) →
      L.map maskStep = L := by
    intro L
    induction L with
    | nil =>
      intro _
      rfl
    | cons t rest ih =>
      intro hL
      rw [List.map_cons, maskStep_noop t (hL t (List.mem_cons_self _ _)),
        ih (fun u hu => hL u (List.mem_cons_of_mem _ hu))]
  rw [h1 _ hall, segments_flatten]

theorem allChars_of_subset (q : Char → Bool) {s t : List Char}
    (hsub : ∀ c ∈ s, c ∈ t) (ht : allChars q t = true) : allChars q s = true := by
  rw [allChars_mem] at ht ⊢
  intro c hc
  exact ht c (hsub c hc)

theorem noAdj_of_mid (p : Char → Char → Bool) (s w : List Char)
    (h : ∃ u v, w = u ++ (s ++ v)) (hw : noAdjPair p w = true) :
    noAdjPair p s = true := by
  obtain ⟨u, v, rfl⟩ := h
  exact noAdjPair_append_right p s v (noAdjPair_append_left p u (s ++ v) hw)

theorem allChars_of_rel (q : Char → Bool) {z y : List Char}
    (hstar : q '*' = true)
    (hF : List.Forall₂ (fun a b => b = a ∨ (b = '*' ∧ wordChar a = true)) z y)
    (hz : allChars q z = true) : allChars q y = true := by
  rw [allChars_mem] at hz ⊢
  intro c hc
  rcases rel_mem hF c hc with hm | rfl
  · exact hz c hm
  · exact hstar

theorem dedupePunct_head_eq (s : List Char) :
    (dedupePunct s).head? = s.head? := by
  cases s with
  | nil => rfl
  | cons c t => exact dedupePunct_head c t

theorem upperFirst_noop (s : List Char)
    (hfix : ∀ c, s.head? = some c → pyIsAlpha c = true → pyToUpper c = c) :
    upperFirst s = s := by
  cases s with
  | nil => rfl
  | cons a t =>
    unfold upperFirst
    simp only
    by_cases ha : pyIsAlpha a = true
    · rw [if_pos ha, hfix a rfl ha]
    · rw [if_neg ha]

theorem pyToUpper_punct_fix (c : Char) (h : isPunctCls c = true) :
    pyToUpper c = c := by
  rw [isPunctCls_toNat] at h
  unfold pyToUpper
  rw [if_neg (by omega)]

theorem terminalPunct_not_word (c : Char) (h : terminalPunct c = true) :
    wordChar c = false := by
  rw [terminalPunct_toNat] at h
  unfold wordChar pyIsAlnum pyIsAlpha pyIsDigit
  rcases h with h | h | h <;> simp [h]

theorem blank_pyToUpper (c : Char)
    (hc : (!pyIsSpace c || c == ' ') = true) :
    (!pyIsSpace (pyToUpper c) || pyToUpper c == ' ') = true := by
  by_cases hsp : pyIsSpace c = true
  · rw [hsp] at hc
    simp only [Bool.not_true, Bool.false_or] at hc
    have hce : c = ' ' := beq_iff_eq.mp hc
    subst hce
    decide
  · have hns : pyIsSpace (pyToUpper c) = false := by
      rw [pyIsSpace_pyToUpper]
      exact Bool.eq_false_iff.mpr hsp
    rw [hns]
    rfl

theorem tick_pyToUpper (c : Char)
    (hc : (c != backtick) = true) : (pyToUpper c != backtick) = true := by
  rw [bne_iff_ne] at hc ⊢
  exact pyToUpper_ne_backtick c hc

theorem allChars_filter_tick (s : List Char) :
    allChars (fun c => c != backtick) (removeBackticks s) = true := by
  rw [allChars_mem]
  intro c hc
  exact (List.mem_filter.mp hc).2

theorem prepare_facts (x : List Char) :
    allChars (fun c => !pyIsSpace c || c == ' ') (prepare_prompt_for_ai x) = true ∧
    noAdjPair (fun a b => a == ' ' && b == ' ') (prepare_prompt_for_ai x) = true ∧
    allChars (fun c => c != backtick) (prepare_prompt_for_ai x) = true ∧
    noAdjPair (fun a b => isPunctCls a && a == b) (prepare_prompt_for_ai x) = true ∧
    (∀ c, (prepare_prompt_for_ai x).head? = some c →
      pyIsSpace c = false ∧ (pyIsAlpha c = true → pyToUpper c = c)) ∧
    (∀ c, (prepare_prompt_for_ai x).getLast? = some c → terminalPunct c = true) := by
  unfold prepare_prompt_for_ai
  set w1 := pyStrip x
  set w2 := removeBackticks w1
  set w3 := removeUrls w2
  set w4 := collapseWs w3
  set w5 := pyStrip w4
  set w6 := dedupePunct w5
  set w7 := upperFirst w6
  set w8 := ensureTerminal w7
  have hF := mask_words_rel w8
  have hsub5 : ∀ c ∈ w5, c ∈ w4 := by
    intro c hc
    obtain ⟨u, v, heq⟩ := pyStrip_mid w4
    rw [heq]
    exact List.mem_append.mpr (Or.inr (List.mem_append.mpr (Or.inl hc)))
  have hsub6 : ∀ c ∈ w6, c ∈ w5 := fun c hc => (dedupePunct_sublist w5).subset hc
  refine ⟨?_, ?_, ?_, ?_, ?_, ?_⟩
  · -- every whitespace character of the output is a plain space
    apply allChars_of_rel _ (by decide) hF
    apply ensureTerminal_allChars _ _ (by decide)
    apply upperFirst_allChars _ _ blank_pyToUpper
    apply allChars_of_subset _ hsub6
    apply allChars_of_subset _ hsub5
    exact collapseWs_allBlank w3
  · -- no two adjacent spaces
    apply rel_noAdj _ ?hL ?hR hF ?h8
    case hL =>
      intro b
      show (('*' == ' ') && (b == ' ')) = false
      rw [show (('*' : Char) == ' ') = false from by decide, Bool.false_and]
    case hR =>
      intro a
      show ((a == ' ') && ('*' == ' ')) = false
      rw [show (('*' : Char) == ' ') = false from by decide, Bool.and_false]
    case h8 =>
      apply ensureTerminal_noAdj _ _ ?h7 ?hdot
      case hdot =>
        intro c _ _
        show ((c == ' ') && ('.' == ' ')) = false
        rw [show (('.' : Char) == ' ') = false from by decide, Bool.and_false]
      case h7 =>
        apply upperFirst_noAdj _ _ ?hp
        case hp =>
          intro c b h
          show ((c == ' ') && (b == ' ')) = true
          have h' : ((pyToUpper c == ' ') && (b == ' ')) = true := h
          rw [Bool.and_eq_true] at h' ⊢
          exact ⟨beq_iff_eq.mpr (pyToUpper_space_eq c (beq_iff_eq.mp h'.1)), h'.2⟩
        apply dedupePunct_preserves_noAdj
        apply noAdj_of_mid _ _ w4 (pyStrip_mid w4)
        exact collapseWs_noAdjSpace w3
  · -- no backtick in the output
    apply allChars_of_rel _ star_ne_backtick hF
    apply ensureTerminal_allChars _ _ (by decide)
    apply upperFirst_allChars _ _ tick_pyToUpper
    apply allChars_of_subset _ hsub6
    apply allChars_of_subset _ hsub5
    rw [allChars_mem]
    intro c hc
    rcases collapseWs_mem w3 c hc with hm | heq
    · have t3 : allChars (fun c => c != backtick) w3 = true :=
        allChars_of_subset _ (removeUrls_mem w2) (allChars_filter_tick w1)
      exact (allChars_mem _ _).mp t3 c hm
    · rw [heq]
      decide
  · -- no two adjacent equal punctuation characters
    apply rel_noAdj _ ?hLd ?hRd hF ?h8d
    case hLd =>
      intro b
      show (isPunctCls '*' && ('*' == b)) = false
      rw [isPunctCls_star, Bool.false_and]
    case hRd =>
      intro a
      show (isPunctCls a && (a == '*')) = false
      by_cases haa : (a == '*') = true
      · rw [beq_iff_eq.mp haa, isPunctCls_star, Bool.false_and]
      · rw [show (a == '*') = false from Bool.eq_false_iff.mpr haa, Bool.and_false]
    case h8d =>
      apply ensureTerminal_noAdj _ _ ?h7d ?hdotd
      case hdotd =>
        intro c _ hterm
        show (isPunctCls c && (c == '.')) = false
        by_cases hcd : (c == '.') = true
        · have hce : c = '.' := beq_iff_eq.mp hcd
          rw [hce] at hterm
          exact absurd hterm (by decide)
        · rw [show (c == '.') = false from Bool.eq_false_iff.mpr hcd, Bool.and_false]
      case h7d =>
        apply upperFirst_noAdj _ _ ?hpd
        case hpd =>
          intro c b h
          show (isPunctCls c && (c == b)) = true
          have h' : (isPunctCls (pyToUpper c) && (pyToUpper c == b)) = true := h
          rw [Bool.and_eq_true] at h' ⊢
          have hp1 : isPunctCls c = true := by
            rw [← isPunctCls_pyToUpper]
            exact h'.1
          refine ⟨hp1, ?_⟩
          rw [← pyToUpper_punct_fix c hp1]
          exact h'.2
        exact dedupePunct_noDup w5
  · -- the first character is neither whitespace nor an uppercasable letter
    intro c hc
    obtain ⟨a, ha8, hrel⟩ := rel_head hF c hc
    rw [ensureTerminal_head] at ha8
    have h6 : ∀ d, w6.head? = some d → pyIsSpace d = false := by
      intro d hd
      rw [dedupePunct_head_eq] at hd
      exact pyStrip_head w4 d hd
    have hnsa : pyIsSpace a = false := upperFirst_head_nonspace w6 h6 a ha8
    have hfixa : pyIsAlpha a = true → pyToUpper a = a := upperFirst_head_fix w6 a ha8
    rcases hrel with hca | ⟨hcs, _⟩
    · rw [hca]
      exact ⟨hnsa, hfixa⟩
    · rw [hcs]
      exact ⟨by decide, fun halpha => absurd halpha (by decide)⟩
  · -- the last character is terminal punctuation
    intro c hc
    obtain ⟨a, ha8, hrel⟩ := rel_last hF c hc
    have hterm : terminalPunct a = true := ensureTerminal_last w7 a ha8
    rcases hrel with hca | ⟨hcs, hwa⟩
    · rw [hca]
      exact hterm
    · have hnw := terminalPunct_not_word a hterm
      rw [hnw] at hwa
      cases hwa

/-- **C2** (corrected): `prepare_prompt_for_ai` is not idempotent in
general; the string `"see http://"` is a counterexample.  The first pass
appends a terminal `"."` after the bare scheme `"http://"` (which
`https?://\S+` does not match), and the second pass then removes
`"http://."` as a URL, so the two passes disagree. -/
theorem c2_counterexample :
    prepare_prompt_for_ai (prepare_prompt_for_ai (chars "see http://")) ≠
      prepare_prompt_for_ai (chars "see http://") := by decide

/-- **C2** (amended): `prepare_prompt_for_ai` is idempotent on every input
whose first-pass output contains no match of the URL pattern
`https?://\S+`: stripping, backtick removal, whitespace collapsing,
punctuation de-duplication, upper-casing, terminal punctuation and word
masking are all identities on such an output. -/
theorem c2_prepare_idempotent_on_urlfree (x : List Char)
    (h : urlFree (prepare_prompt_for_ai x) = true) :
    prepare_prompt_for_ai (prepare_prompt_for_ai x) = prepare_prompt_for_ai x := by
  obtain ⟨bY, aY, tY, dY, hHead, hLast⟩ := prepare_facts x
  have hheadns : ∀ c, (prepare_prompt_for_ai x).head? = some c → pyIsSpace c = false :=
    fun c hc => (hHead c hc).1
  have hlastns : ∀ c, (prepare_prompt_for_ai x).getLast? = some c → pyIsSpace c = false :=
    fun c hc => terminalPunct_nonspace c (hLast c hc)
  have hs : pyStrip (prepare_prompt_for_ai x) = prepare_prompt_for_ai x :=
    pyStrip_noop _ hheadns hlastns
  have hb : removeBackticks (prepare_prompt_for_ai x) = prepare_prompt_for_ai x :=
    removeBackticks_noop _ tY
  have hu : removeUrls (prepare_prompt_for_ai x) = prepare_prompt_for_ai x :=
    removeUrls_noop _ h
  have hcw : collapseWs (prepare_prompt_for_ai x) = prepare_prompt_for_ai x :=
    collapseWs_noop _ bY aY
  have hd : dedupePunct (prepare_prompt_for_ai x) = prepare_prompt_for_ai x :=
    dedupePunct_noop _ dY
  have hup : upperFirst (prepare_prompt_for_ai x) = prepare_prompt_for_ai x :=
    upperFirst_noop _ (fun c hc => (hHead c hc).2)
  have het : ensureTerminal (prepare_prompt_for_ai x) = prepare_prompt_for_ai x :=
    ensureTerminal_noop _ hLast
  have hmw : mask_words (prepare_prompt_for_ai x) = prepare_prompt_for_ai x := by
    rw [show prepare_prompt_for_ai x = mask_words (ensureTerminal (upperFirst (dedupePunct
      (pyStrip (collapseWs (removeUrls (removeBackticks (pyStrip x)))))))) from rfl]
    exact mask_words_idem _
  show mask_words (ensureTerminal (upperFirst (dedupePunct (pyStrip (collapseWs (removeUrls
    (removeBackticks (pyStrip (prepare_prompt_for_ai x))))))))) = prepare_prompt_for_ai x
  rw [hs, hb, hu, hcw, hs, hd, hup, het, hmw]

/-- Witness for the amended C2 theorem at the concrete input
`"hello world"`, whose cleaned form `"Hello world."` is URL-free. -/
theorem c2_prepare_idempotent_witness :
    urlFree (prepare_prompt_for_ai (chars "hello world")) = true ∧
    prepare_prompt_for_ai (prepare_prompt_for_ai (chars "hello world")) =
      prepare_prompt_for_ai (chars "hello world") :=
  ⟨by decide, c2_prepare_idempotent_on_urlfree (chars "hello world") (by decide)⟩
